import Mathlib

/-!
Verification development for the yaria repository (an interactive front-end
driving yt-dlp).  The Go source under scrutiny is shallowly embedded below:

* `splitCRLF` / `crlfLines` embed the custom `bufio.SplitFunc` of
  `src/tui/tui.go` (lines 74-90) and the tokenization a `bufio.Scanner`
  equipped with it performs on a whole byte stream.
* the regex matchers and `classifyLine` embed the per-line classification
  cascade of `parseOutput` (`src/tui/tui.go` lines 763-872).
* `Download` embeds the retry/fallback loop of
  `src/downloader/downloader.go` (lines 983-1067), with process spawns
  abstracted by an exit-status oracle.
* `parseFormats` / `dedupFormats` / `sortFormats` / `GetFormatsPure` embed
  the pure part of `GetFormats` (`src/downloader/downloader.go` 855-980).
* `updateMetadataLoading` embeds the metadata-loading screen handler of
  `src/tui/tui.go` (lines 438-486).
* `ChanStep` embeds the progress channel discipline
  (`src/tui/tui.go` 874-898).

Machine reals (`float64`) are idealized as exact rationals `ℚ`; Go `int` as
`Int`/`Nat` (the quantities involved — resolution heights, retry counters —
are far from overflow).  Strings are embedded as `List Char` where character
level scanning is involved, as `String` elsewhere.  All definitions are
executable so theorems can be checked on concrete inputs.
-/

/-! ### Small character/string utilities shared by the embeddings -/

/-- The whitespace class of Go regexp whitespace (RE2: tab, LF, FF, CR, space). -/
def isGoSpace (c : Char) : Bool :=
  c = ' ' || c = '\t' || c = '\n' || c = '\x0C' || c = '\r'

/-- Go regexp digit class. -/
def isGoDigit (c : Char) : Bool := '0' ≤ c && c ≤ '9'

/-- Go regexp word class (`[0-9A-Za-z_]`). -/
def isGoWord (c : Char) : Bool :=
  ('0' ≤ c && c ≤ '9') || ('a' ≤ c && c ≤ 'z') || ('A' ≤ c && c ≤ 'Z') || c = '_'

/-- `strings.Contains s sub` on character lists. -/
def containsSub (s sub : List Char) : Bool :=
  if sub.isPrefixOf s then true
  else match s with
    | [] => false
    | _ :: t => containsSub t sub

/-- `strings.Contains` on `String`s. -/
def containsStr (s sub : String) : Bool := containsSub s.data sub.data

/-- Index of the first character satisfying `p` (`bytes.IndexAny` specialized). -/
def firstIdx (p : Char → Bool) : List Char → Option Nat
  | [] => none
  | c :: rest => if p c then some 0 else (firstIdx p rest).map (· + 1)

/-- A carriage return or line feed, the delimiter set of `splitCRLF`. -/
def isCRLF (c : Char) : Bool := c = '\r' || c = '\n'

/-! ### The line splitter (`splitCRLF`, src/tui/tui.go lines 74-90)

The Go function is a `bufio.SplitFunc`: given the buffered `data` and an
`atEOF` flag it returns how many bytes to advance and the token produced (or
no token when more input is needed).  It splits on either CR or LF,
consuming CRLF as one delimiter. -/

/-- One step of the splitter, mirroring the Go `splitCRLF` body. -/
def splitCRLF (data : List Char) (atEOF : Bool) : Nat × Option (List Char) :=
  match firstIdx isCRLF data with
  | some i =>
    if data.getD i ' ' = '\r' then
      if i + 1 < data.length ∧ data.getD (i + 1) ' ' = '\n' then
        (i + 2, some (data.take i))
      else (i + 1, some (data.take i))
    else (i + 1, some (data.take i))
  | none => if atEOF ∧ data ≠ [] then (data.length, some data) else (0, none)

/-- Fueled iteration of the splitter: what `bufio.Scanner.Scan` produces when
the whole stream is available in the buffer (`atEOF = true`).  Every
productive step consumes at least one character, so `data.length + 1` fuel is
always enough (see `crlfLines`). -/
def scanLines : Nat → List Char → List (List Char)
  | 0, _ => []
  | fuel + 1, data =>
    match splitCRLF data true with
    | (adv, some tok) => tok :: scanLines fuel (data.drop adv)
    | (_, none) => []

/-- The token stream `parseOutput`'s scanner sees for a given byte stream. -/
def crlfLines (data : List Char) : List (List Char) :=
  scanLines (data.length + 1) data

/-! ### Facts about `firstIdx` and the splitter -/

theorem scanLines_succ (fuel : Nat) (data : List Char) :
    scanLines (fuel + 1) data =
      match splitCRLF data true with
      | (adv, some tok) => tok :: scanLines fuel (data.drop adv)
      | (_, none) => [] := rfl

theorem firstIdx_lt (p : Char → Bool) :
    ∀ (data : List Char) (i : Nat), firstIdx p data = some i → i < data.length := by
  intro data
  induction data with
  | nil => intro i h; simp [firstIdx] at h
  | cons c rest ih =>
    intro i h
    by_cases hc : p c = true
    · simp [firstIdx, hc] at h
      simp only [List.length_cons]
      omega
    · simp [firstIdx, hc] at h
      obtain ⟨j, hj, rfl⟩ := h
      have := ih j hj
      simp only [List.length_cons]
      omega

theorem firstIdx_take (p : Char → Bool) :
    ∀ (data : List Char) (i : Nat), firstIdx p data = some i →
      ∀ c ∈ data.take i, p c = false := by
  intro data
  induction data with
  | nil => intro i h; simp [firstIdx] at h
  | cons a rest ih =>
    intro i h c hc
    by_cases ha : p a = true
    · simp [firstIdx, ha] at h
      subst h
      simp at hc
    · simp [firstIdx, ha] at h
      obtain ⟨j, hj, rfl⟩ := h
      simp at hc
      rcases hc with rfl | hc
      · simpa using ha
      · exact ih j hj c hc

theorem firstIdx_none (p : Char → Bool) :
    ∀ (data : List Char), firstIdx p data = none → ∀ c ∈ data, p c = false := by
  intro data
  induction data with
  | nil => intro _ c hc; simp at hc
  | cons a rest ih =>
    intro h c hc
    by_cases ha : p a = true
    · simp [firstIdx, ha] at h
    · simp [firstIdx, ha] at h
      simp at hc
      rcases hc with rfl | hc
      · simpa using ha
      · exact ih h c hc

theorem firstIdx_append (p : Char → Bool) :
    ∀ (a : List Char) (d : Char) (b : List Char), (∀ c ∈ a, p c = false) →
      p d = true → firstIdx p (a ++ d :: b) = some a.length := by
  intro a
  induction a with
  | nil => intro d b _ hd; simp [firstIdx, hd]
  | cons x rest ih =>
    intro d b ha hd
    have hx : p x = false := ha x (by simp)
    simp only [List.cons_append, firstIdx, hx, Bool.false_eq_true, if_false]
    simp [List.append_eq, ih d b (fun c hc => ha c (by simp [hc])) hd]

theorem getD_append_length (a : List Char) (d : Char) (b : List Char) (x : Char) :
    (a ++ d :: b).getD a.length x = d := by
  induction a with
  | nil => simp
  | cons y rest ih => simpa using ih

/-- A productive splitter step consumes at least one character of a nonempty
buffer. -/
theorem splitCRLF_some_pos {data : List Char} {adv : Nat} {tok : List Char}
    (h : splitCRLF data true = (adv, some tok)) : 0 < adv ∧ 0 < data.length := by
  unfold splitCRLF at h
  split at h
  next i hidx =>
    have hi := firstIdx_lt _ _ _ hidx
    split at h
    · split at h
      · simp only [Prod.mk.injEq] at h; omega
      · simp only [Prod.mk.injEq] at h; omega
    · simp only [Prod.mk.injEq] at h; omega
  next hidx =>
    split at h
    next hcond =>
      simp only [Prod.mk.injEq] at h
      have : 0 < data.length := List.length_pos.mpr hcond.2
      omega
    next => simp at h

/-- When the splitter yields no token, the buffer was empty. -/
theorem splitCRLF_none {data : List Char} {adv : Nat}
    (h : splitCRLF data true = (adv, none)) : data = [] := by
  unfold splitCRLF at h
  split at h
  next i hidx =>
    split at h
    · split at h
      · simp at h
      · simp at h
    · simp at h
  next hidx =>
    split at h
    · simp at h
    next hcond =>
      by_cases hd : data = []
      · exact hd
      · exact absurd ⟨rfl, hd⟩ hcond

theorem scanLines_fuel :
    ∀ (fuel fuel' : Nat) (data : List Char), data.length < fuel → data.length < fuel' →
      scanLines fuel data = scanLines fuel' data := by
  intro fuel
  induction fuel with
  | zero => intro fuel' data h _; omega
  | succ f ih =>
    intro fuel' data h h'
    cases fuel' with
    | zero => omega
    | succ f' =>
      rw [scanLines_succ, scanLines_succ]
      cases hsp : splitCRLF data true with
      | mk adv otok =>
        cases otok with
        | none => rfl
        | some tok =>
          have hpos := splitCRLF_some_pos hsp
          have hdlen : (data.drop adv).length = data.length - adv := List.length_drop ..
          show tok :: scanLines f (data.drop adv) = tok :: scanLines f' (data.drop adv)
          rw [ih f' (data.drop adv) (by omega) (by omega)]

theorem crlfLines_cons {data : List Char} {adv : Nat} {tok : List Char}
    (h : splitCRLF data true = (adv, some tok)) :
    crlfLines data = tok :: crlfLines (data.drop adv) := by
  have hpos := splitCRLF_some_pos h
  have hdlen : (data.drop adv).length = data.length - adv := List.length_drop ..
  show scanLines (data.length + 1) data = tok :: scanLines ((data.drop adv).length + 1) (data.drop adv)
  rw [scanLines_succ, h]
  show tok :: scanLines data.length (data.drop adv) = _
  rw [scanLines_fuel data.length ((data.drop adv).length + 1) (data.drop adv) (by omega) (by omega)]

theorem crlfLines_nil : crlfLines [] = [] := rfl

/-! ### Splitting behaviour at explicit delimiters -/

theorem drop_append_length_succ (a : List Char) (d : Char) (b : List Char) :
    (a ++ d :: b).drop (a.length + 1) = b := by
  have h : a ++ d :: b = (a ++ [d]) ++ b := by simp
  rw [h, show a.length + 1 = (a ++ [d]).length by simp]
  exact List.drop_left ..

theorem drop_append_length_two (a : List Char) (d e : Char) (b : List Char) :
    (a ++ d :: e :: b).drop (a.length + 2) = b := by
  have h : a ++ d :: e :: b = (a ++ [d, e]) ++ b := by simp
  rw [h, show a.length + 2 = (a ++ [d, e]).length by simp]
  exact List.drop_left ..

theorem getD_append_length_succ (a : List Char) (d e : Char) (b : List Char) (x : Char) :
    (a ++ d :: e :: b).getD (a.length + 1) x = e := by
  have h : a ++ d :: e :: b = (a ++ [d]) ++ e :: b := by simp
  rw [h, show a.length + 1 = (a ++ [d]).length by simp]
  exact getD_append_length ..

theorem splitCRLF_append_lf (a b : List Char) (ha : ∀ c ∈ a, isCRLF c = false) :
    splitCRLF (a ++ '\n' :: b) true = (a.length + 1, some a) := by
  unfold splitCRLF
  rw [firstIdx_append isCRLF a '\n' b ha (by decide)]
  show (if (a ++ '\n' :: b).getD a.length ' ' = '\r' then
      if a.length + 1 < (a ++ '\n' :: b).length ∧ (a ++ '\n' :: b).getD (a.length + 1) ' ' = '\n' then
        (a.length + 2, some ((a ++ '\n' :: b).take a.length))
      else (a.length + 1, some ((a ++ '\n' :: b).take a.length))
    else (a.length + 1, some ((a ++ '\n' :: b).take a.length))) = (a.length + 1, some a)
  rw [getD_append_length, if_neg (by decide), List.take_left]

theorem splitCRLF_append_crlf (a b : List Char) (ha : ∀ c ∈ a, isCRLF c = false) :
    splitCRLF (a ++ '\r' :: '\n' :: b) true = (a.length + 2, some a) := by
  unfold splitCRLF
  rw [firstIdx_append isCRLF a '\r' ('\n' :: b) ha (by decide)]
  show (if (a ++ '\r' :: '\n' :: b).getD a.length ' ' = '\r' then
      if a.length + 1 < (a ++ '\r' :: '\n' :: b).length ∧
          (a ++ '\r' :: '\n' :: b).getD (a.length + 1) ' ' = '\n' then
        (a.length + 2, some ((a ++ '\r' :: '\n' :: b).take a.length))
      else (a.length + 1, some ((a ++ '\r' :: '\n' :: b).take a.length))
    else (a.length + 1, some ((a ++ '\r' :: '\n' :: b).take a.length))) = (a.length + 2, some a)
  rw [getD_append_length, if_pos rfl,
    if_pos ⟨by simp, getD_append_length_succ ..⟩, List.take_left]

theorem splitCRLF_append_cr (a b : List Char) (ha : ∀ c ∈ a, isCRLF c = false)
    (hb : b.head? ≠ some '\n') :
    splitCRLF (a ++ '\r' :: b) true = (a.length + 1, some a) := by
  unfold splitCRLF
  rw [firstIdx_append isCRLF a '\r' b ha (by decide)]
  show (if (a ++ '\r' :: b).getD a.length ' ' = '\r' then
      if a.length + 1 < (a ++ '\r' :: b).length ∧ (a ++ '\r' :: b).getD (a.length + 1) ' ' = '\n' then
        (a.length + 2, some ((a ++ '\r' :: b).take a.length))
      else (a.length + 1, some ((a ++ '\r' :: b).take a.length))
    else (a.length + 1, some ((a ++ '\r' :: b).take a.length))) = (a.length + 1, some a)
  have hcond : ¬(a.length + 1 < (a ++ '\r' :: b).length ∧
      (a ++ '\r' :: b).getD (a.length + 1) ' ' = '\n') := by
    cases b with
    | nil => intro hcon; simp at hcon
    | cons c b' =>
      intro hcon
      rw [getD_append_length_succ] at hcon
      simp at hb
      exact hb hcon.2
  rw [getD_append_length, if_pos rfl, if_neg hcond, List.take_left]

theorem crlfLines_append_lf (a b : List Char) (ha : ∀ c ∈ a, isCRLF c = false) :
    crlfLines (a ++ '\n' :: b) = a :: crlfLines b := by
  rw [crlfLines_cons (splitCRLF_append_lf a b ha), drop_append_length_succ]

theorem crlfLines_append_crlf (a b : List Char) (ha : ∀ c ∈ a, isCRLF c = false) :
    crlfLines (a ++ '\r' :: '\n' :: b) = a :: crlfLines b := by
  rw [crlfLines_cons (splitCRLF_append_crlf a b ha), drop_append_length_two]

theorem crlfLines_append_cr (a b : List Char) (ha : ∀ c ∈ a, isCRLF c = false)
    (hb : b.head? ≠ some '\n') :
    crlfLines (a ++ '\r' :: b) = a :: crlfLines b := by
  rw [crlfLines_cons (splitCRLF_append_cr a b ha hb), drop_append_length_succ]

/-- Tokens produced by one splitter step contain no CR or LF. -/
theorem splitCRLF_tok_clean {data : List Char} {adv : Nat} {tok : List Char}
    (h : splitCRLF data true = (adv, some tok)) : ∀ c ∈ tok, isCRLF c = false := by
  unfold splitCRLF at h
  split at h
  next i hidx =>
    have htake := firstIdx_take isCRLF data i hidx
    split at h
    · split at h
      · simp only [Prod.mk.injEq, Option.some.injEq] at h
        intro c hc
        exact htake c (by rw [h.2]; exact hc)
      · simp only [Prod.mk.injEq, Option.some.injEq] at h
        intro c hc
        exact htake c (by rw [h.2]; exact hc)
    · simp only [Prod.mk.injEq, Option.some.injEq] at h
      intro c hc
      exact htake c (by rw [h.2]; exact hc)
  next hidx =>
    split at h
    · simp only [Prod.mk.injEq, Option.some.injEq] at h
      intro c hc
      exact firstIdx_none isCRLF data hidx c (by rw [h.2]; exact hc)
    · simp at h

theorem crlfLines_clean_aux :
    ∀ (n : Nat) (data : List Char), data.length ≤ n →
      ∀ t ∈ crlfLines data, ∀ c ∈ t, isCRLF c = false := by
  intro n
  induction n with
  | zero =>
    intro data hlen t ht
    have hnil : data = [] := List.eq_nil_of_length_eq_zero (by omega)
    subst hnil
    simp [crlfLines_nil] at ht
  | succ n ih =>
    intro data hlen t ht c hc
    cases hsp : splitCRLF data true with
    | mk adv otok =>
      cases otok with
      | none =>
        have hnil := splitCRLF_none hsp
        subst hnil
        simp [crlfLines_nil] at ht
      | some tok =>
        rw [crlfLines_cons hsp] at ht
        have hpos := splitCRLF_some_pos hsp
        rcases List.mem_cons.mp ht with rfl | ht
        · exact splitCRLF_tok_clean hsp c hc
        · have hd : (data.drop adv).length ≤ n := by
            rw [List.length_drop]; omega
          exact ih (data.drop adv) hd t ht c hc

/-- No token of the line splitter contains a CR or LF. -/
theorem crlfLines_clean (data : List Char) :
    ∀ t ∈ crlfLines data, ∀ c ∈ t, isCRLF c = false :=
  crlfLines_clean_aux data.length data le_rfl

/-! ### The progress line classifier (`parseOutput`, src/tui/tui.go lines 763-872)

`parseOutput` classifies each scanned line through a fixed cascade of Go
regular expressions, first match wins:

1. `ytdlpProgressRegex`  — literal `[download]`, whitespace, explicit percent;
2. `customProgressRegex` — literal `download:[download]`, lazy gap, a
   parenthesized percent;
3. `aria2cProgressRegex` — a parenthesized integer percent;
4. `bytesProgressRegex`  — a `current/total` byte pair with unit suffixes;
5. otherwise, lines containing `[download]`, `[info]` or `Destination:` are
   forwarded as zero-percent informational events; all other lines yield no
   event.

Each matcher below hand-implements exactly one of these regexes with Go's
(RE2, leftmost-first) match semantics: candidate start positions are tried
left to right, and at a given start the alternatives are explored in the
backtracking order a Perl-style engine would use (greedy quantifiers long to
short, `?` present before absent, alternation left to right); the first
success is returned. -/

/-- Try an anchored matcher at every start position, leftmost first. -/
def scanFor {α : Type} (f : List Char → Option α) : List Char → Option α
  | [] => f []
  | c :: rest =>
    match f (c :: rest) with
    | some x => some x
    | none => scanFor f rest

/-- Try `f n`, `f (n-1)`, …, `f 0`; first success wins (a greedy `*`). -/
def descend {α : Type} (f : Nat → Option α) : Nat → Option α
  | 0 => f 0
  | n + 1 =>
    match f (n + 1) with
    | some x => some x
    | none => descend f n

/-- Try `f n`, `f (n-1)`, …, `f 1`; first success wins (a greedy `+`). -/
def descend1 {α : Type} (f : Nat → Option α) : Nat → Option α
  | 0 => none
  | n + 1 =>
    match f (n + 1) with
    | some x => some x
    | none => descend1 f n

/-- Length of the maximal digit run at the head. -/
def digitRun (l : List Char) : Nat := (l.takeWhile isGoDigit).length

/-- Length of the maximal whitespace run at the head. -/
def spaceRun (l : List Char) : Nat := (l.takeWhile isGoSpace).length

/-- Anchored match of the numeric part `digits, optional dot, digits, percent
sign` shared by `ytdlpProgressRegex` and `customProgressRegex`; returns the
captured number.  With a maximal leading digit run the backtracking search of
the Go engine succeeds exactly in the cases enumerated here. -/
def numPercent (l : List Char) : Option (List Char) :=
  let d1 := l.takeWhile isGoDigit
  if d1 = [] then none
  else
    match l.drop d1.length with
    | '%' :: _ => some d1
    | '.' :: r2 =>
      let d2 := r2.takeWhile isGoDigit
      match r2.drop d2.length with
      | '%' :: _ => some (d1 ++ '.' :: d2)
      | _ => none
    | _ => none

/-- Anchored matcher for `ytdlpProgressRegex` (literal `[download]`, one or
more whitespace characters, then an explicit percent). -/
def ytdlpAt (l : List Char) : Option (List Char) :=
  if ("[download]".data).isPrefixOf l then
    let rest := l.drop 10
    let sp := spaceRun rest
    if sp = 0 then none else numPercent (rest.drop sp)
  else none

/-- `ytdlpProgressRegex.FindStringSubmatch`: the captured percent number. -/
def ytdlpMatch (l : List Char) : Option (List Char) := scanFor ytdlpAt l

/-- Anchored match of a parenthesized percent `( number % )` used by the
custom progress template regex. -/
def parenNumAt (l : List Char) : Option (List Char) :=
  match l with
  | '(' :: r =>
    let d1 := r.takeWhile isGoDigit
    if d1 = [] then none
    else
      match r.drop d1.length with
      | '%' :: ')' :: _ => some d1
      | '.' :: r2 =>
        let d2 := r2.takeWhile isGoDigit
        match r2.drop d2.length with
        | '%' :: ')' :: _ => some (d1 ++ '.' :: d2)
        | _ => none
      | _ => none
  | _ => none

/-- A lazy gap (`.*?`): try the earliest start, but the dot does not cross a
line feed. -/
def scanUntilLF {α : Type} (f : List Char → Option α) : List Char → Option α
  | [] => f []
  | c :: rest =>
    match f (c :: rest) with
    | some x => some x
    | none => if c = '\n' then none else scanUntilLF f rest

/-- Anchored matcher for `customProgressRegex` (literal prefix
`download:[download]`, lazy gap, parenthesized percent). -/
def customAt (l : List Char) : Option (List Char) :=
  if ("download:[download]".data).isPrefixOf l then
    scanUntilLF parenNumAt (l.drop 19)
  else none

/-- `customProgressRegex.FindStringSubmatch`: the captured percent number. -/
def customMatch (l : List Char) : Option (List Char) := scanFor customAt l

/-- Anchored matcher for `aria2cProgressRegex` (`(` digits `%)`). -/
def aria2cAt (l : List Char) : Option (List Char) :=
  match l with
  | '(' :: r =>
    let d1 := r.takeWhile isGoDigit
    if d1 = [] then none
    else
      match r.drop d1.length with
      | '%' :: ')' :: _ => some d1
      | _ => none
  | _ => none

/-- `aria2cProgressRegex.FindStringSubmatch`: the captured integer percent. -/
def aria2cMatch (l : List Char) : Option (List Char) := scanFor aria2cAt l

/-- Tail `optional slash, s` of the speed capture; the slash is preferred. -/
def slashS : List Char → Option Nat
  | '/' :: 's' :: _ => some 2
  | 's' :: _ => some 1
  | _ => none

/-- `word-chars then optional slash then s` with a greedy word run: try the
longest word prefix first. -/
def wordSlashS (l : List Char) : Option Nat :=
  let n := (l.takeWhile isGoWord).length
  if n = 0 then none
  else descend1 (fun k => (slashS (l.drop k)).map (k + ·)) n

/-- `digits* word-chars optional-slash s` with a greedy digit run. -/
def digitsWordS (l : List Char) : Option Nat :=
  descend (fun j => (wordSlashS (l.drop j)).map (j + ·)) (digitRun l)

/-- The full speed capture `digits+ optional-dot digits* word+ slash? s`,
returning how many characters it spans. -/
def speedNumAt (l : List Char) : Option Nat :=
  descend1
    (fun k =>
      let r := l.drop k
      match r with
      | '.' :: r2 =>
        match (digitsWordS r2).map (k + 1 + ·) with
        | some m => some m
        | none => (digitsWordS r).map (k + ·)
      | _ => (digitsWordS r).map (k + ·))
    (digitRun l)

/-- Anchored matcher for `speedRegex`: the alternation `DL:` or `at`
followed by whitespace, then the speed capture. -/
def speedAt (l : List Char) : Option (List Char) :=
  if ("DL:".data).isPrefixOf l then
    (speedNumAt (l.drop 3)).map (fun m => (l.drop 3).take m)
  else if ("at".data).isPrefixOf l then
    let r := l.drop 2
    let sp := spaceRun r
    if sp = 0 then none
    else (speedNumAt (r.drop sp)).map (fun m => (r.drop sp).take m)
  else none

/-- `speedRegex.FindStringSubmatch`: the captured transfer speed. -/
def speedMatch (l : List Char) : Option (List Char) := scanFor speedAt l

/-- Anchored matcher for `etaRegex` (`ETA`, a run of colons/whitespace, then
a non-space capture).  The class run is greedy but backtracks: a shorter run
can succeed when the next character is a colon (a non-space). -/
def etaAt (l : List Char) : Option (List Char) :=
  if ("ETA".data).isPrefixOf l then
    let r := l.drop 3
    let n := (r.takeWhile (fun c => c = ':' || isGoSpace c)).length
    if n = 0 then none
    else
      descend1
        (fun k =>
          let cap := (r.drop k).takeWhile (fun c => !isGoSpace c)
          if cap = [] then none else some cap)
        n
  else none

/-- `etaRegex.FindStringSubmatch`: the captured ETA token. -/
def etaMatch (l : List Char) : Option (List Char) := scanFor etaAt l

/-- Characters admitted by the byte-count class `[0-9.]`. -/
def isNumDot (c : Char) : Bool := isGoDigit c || c = '.'

/-- Length of the maximal `[0-9.]` run at the head. -/
def numDotRun (l : List Char) : Nat := (l.takeWhile isNumDot).length

/-- The unit alternatives of `[kKmMgGtT]?i?B` at the head of `l`, as consumed
lengths in the engine's preference order (size letter present before absent,
`i` present before absent). -/
def isSizeLetter (c : Char) : Bool :=
  c = 'k' || c = 'K' || c = 'm' || c = 'M' || c = 'g' || c = 'G' || c = 't' || c = 'T'

def unitAlts : List Char → List Nat
  | [] => []
  | c :: rest =>
    (if isSizeLetter c then
      (match rest with
       | 'i' :: 'B' :: _ => [3]
       | _ => []) ++
      (match rest with
       | 'B' :: _ => [2]
       | _ => [])
    else []) ++
    (match c :: rest with
     | 'i' :: 'B' :: _ => [2]
     | _ => []) ++
    (if c = 'B' then [1] else [])

/-- Anchored matcher for `bytesProgressRegex`
(`[0-9.]+ spaces unit / [0-9.]+ spaces unit`), returning the four captures
(current value, current unit, total value, total unit). -/
def bytesAt (l : List Char) : Option (List Char × List Char × List Char × List Char) :=
  descend1
    (fun k1 =>
      let r1 := l.drop k1
      descend
        (fun j1 =>
          let r2 := r1.drop j1
          (unitAlts r2).findSome? (fun u1 =>
            match r2.drop u1 with
            | '/' :: r4 =>
              descend1
                (fun k2 =>
                  let r5 := r4.drop k2
                  descend
                    (fun j2 =>
                      let r6 := r5.drop j2
                      (unitAlts r6).findSome? (fun u2 =>
                        some (l.take k1, r2.take u1, r4.take k2, r6.take u2)))
                    (spaceRun r5))
                (numDotRun r4)
            | _ => none))
        (spaceRun r1))
    (numDotRun l)

/-- `bytesProgressRegex.FindStringSubmatch`: the four captures. -/
def bytesMatch (l : List Char) : Option (List Char × List Char × List Char × List Char) :=
  scanFor bytesAt l

/-! ### Number parsing and the classification cascade -/

/-- Numeric value of a digit list (most significant first). -/
def digitsToNat (l : List Char) : Nat :=
  l.foldl (fun a c => a * 10 + (c.toNat - '0'.toNat)) 0

/-- `strconv.ParseFloat` restricted to the capture alphabet `[0-9.]`
(the only shapes the regex captures can take): at most one dot, at least one
digit.  Go's binary `float64` is idealized as an exact rational. -/
def parseGoFloat (s : List Char) : Option ℚ :=
  if s.count '.' = 0 then
    if s ≠ [] ∧ s.all isGoDigit then some (digitsToNat s) else none
  else if s.count '.' = 1 then
    if (s.takeWhile (· ≠ '.') ++ (s.drop (s.takeWhile (· ≠ '.')).length).drop 1) ≠ [] ∧
        (s.takeWhile (· ≠ '.') ++ (s.drop (s.takeWhile (· ≠ '.')).length).drop 1).all isGoDigit then
      some ((digitsToNat (s.takeWhile (· ≠ '.')) : ℚ) +
        (digitsToNat ((s.drop (s.takeWhile (· ≠ '.')).length).drop 1) : ℚ) /
          10 ^ ((s.drop (s.takeWhile (· ≠ '.')).length).drop 1).length)
    else none
  else none

/-- The value Go assigns with `v, _ := strconv.ParseFloat(s, 64)`:
zero when parsing fails. -/
def parseFloatOrZero (s : List Char) : ℚ := (parseGoFloat s).getD 0

/-- `unitToMultiplier` (src/tui/tui.go lines 784-806): decimal multipliers
for plain-letter units, binary for i-suffixed ones, after upper-casing. -/
def unitToMultiplier (unit : List Char) : ℚ :=
  let u := unit.map Char.toUpper
  if u = "B".data then 1
  else if u = "KB".data then 1000
  else if u = "KIB".data then 1024
  else if u = "MB".data then 1000000
  else if u = "MIB".data then 1024 * 1024
  else if u = "GB".data then 1000000000
  else if u = "GIB".data then 1024 * 1024 * 1024
  else if u = "TB".data then 1000000000000
  else if u = "TIB".data then 1024 * 1024 * 1024 * 1024
  else 1

/-- One normalized progress event as handed to `sendProgress`
(raw line, percent, speed, ETA). -/
structure ProgressEvent where
  line : List Char
  percent : ℚ
  speed : List Char
  eta : List Char
deriving DecidableEq, Repr

/-- Speed attached to an event: the `speedRegex` capture if present, else
empty (src/tui/tui.go lines 818-820 and analogues). -/
def speedOf (l : List Char) : List Char := (speedMatch l).getD []

/-- ETA attached to an event, via `etaRegex`. -/
def etaOf (l : List Char) : List Char := (etaMatch l).getD []

/-- The classification cascade of `parseOutput` for one non-empty scanned
line (src/tui/tui.go lines 812-869): explicit-percent regexes first, then
the byte-pair fallback (guarded against a zero total), then informational
markers; anything else produces no event. -/
def classifyLine (line : List Char) : Option ProgressEvent :=
  match ytdlpMatch line with
  | some cap => some ⟨line, parseFloatOrZero cap, speedOf line, etaOf line⟩
  | none =>
    match customMatch line with
    | some cap => some ⟨line, parseFloatOrZero cap, speedOf line, etaOf line⟩
    | none =>
      match aria2cMatch line with
      | some cap => some ⟨line, parseFloatOrZero cap, speedOf line, etaOf line⟩
      | none =>
        match bytesMatch line with
        | some (c, u1, t, u2) =>
          if 0 < unitToMultiplier u2 ∧ 0 < parseFloatOrZero t then
            some ⟨line, parseFloatOrZero c * unitToMultiplier u1 /
              (parseFloatOrZero t * unitToMultiplier u2) * 100, speedOf line, etaOf line⟩
          else none
        | none =>
          if containsSub line ("[download]".data) || containsSub line ("[info]".data) ||
              containsSub line ("Destination:".data) then
            some ⟨line, 0, [], []⟩
          else none

/-- The events `parseOutput` emits for a whole byte stream: split into lines
on CR/LF, skip empty lines, classify each (src/tui/tui.go lines 763-872). -/
def parseOutputEvents (stream : List Char) : List ProgressEvent :=
  (crlfLines stream).filterMap (fun l => if l = [] then none else classifyLine l)

/-! ### The progress channel (src/tui/tui.go lines 874-898)

`progressChan` is a buffered channel of capacity 100.  `sendProgress` posts
with `select`/`default` — a full buffer drops the update — while
`sendDownloadComplete` posts unconditionally, blocking until there is room.
The channel is modelled as a bounded queue; the consuming Bubble Tea loop
(`waitForProgress`, `updateDownloading`) dequeues from the front. -/

/-- Messages travelling over `progressChan`. -/
inductive ChanMsg where
  | progress (ev : ProgressEvent)
  | complete (success : Bool) (err : Option String)
deriving DecidableEq

/-- Capacity of `progressChan` (`make(chan tea.Msg, 100)`). -/
def progressChanCap : Nat := 100

/-- `sendProgress`: non-blocking send, dropping the event when the buffer is
full. -/
def sendProgress (q : List ChanMsg) (m : ChanMsg) : List ChanMsg :=
  if q.length < progressChanCap then q ++ [m] else q

/-- State of the producer/consumer system around `progressChan`:
the buffered queue, a completion message a blocked `sendDownloadComplete`
still holds, and the messages the consuming loop has received. -/
structure ChanState where
  queue : List ChanMsg
  pending : Option ChanMsg
  delivered : List ChanMsg
deriving DecidableEq

/-- Interleaved steps of the system: a stream-reader goroutine posting a
progress event through `sendProgress`; a blocked `sendDownloadComplete`
completing its send as soon as the buffer has room; the consuming loop
receiving the front message. -/
inductive ChanStep : ChanState → ChanState → Prop where
  | post (s : ChanState) (ev : ProgressEvent) :
      ChanStep s ⟨sendProgress s.queue (.progress ev), s.pending, s.delivered⟩
  | completeSend (s : ChanState) (c : ChanMsg) (h : s.pending = some c)
      (hroom : s.queue.length < progressChanCap) :
      ChanStep s ⟨s.queue ++ [c], none, s.delivered⟩
  | consume (s : ChanState) (m : ChanMsg) (rest : List ChanMsg)
      (h : s.queue = m :: rest) :
      ChanStep s ⟨rest, s.pending, s.delivered ++ [m]⟩

/-- The completion result is somewhere in the system: still held by the
blocked sender, buffered, or already delivered to the loop. -/
def holdsMsg (s : ChanState) (c : ChanMsg) : Prop :=
  s.pending = some c ∨ c ∈ s.queue ∨ c ∈ s.delivered

/-! ### The download engine (`Download`, src/downloader/downloader.go lines 983-1067)

`Download` loops `attempt = 1 .. MaxRetries`, spawning yt-dlp with a fixed
primary argument set; on the final attempt's failure it immediately spawns
one extra run with the fallback argument set.  Spawned processes are
abstracted by an oracle mapping the index of the spawn (0-based, in order)
to whether that invocation exited zero.  The function returns the list of
argument vectors spawned, the success flag and the error, mirroring the Go
return points `(true, nil)` and `(false, errors.New(...))`.
Modelled for the non-Windows executable names. -/

/-- Configuration fields of `config.Config` read by `Download`. -/
structure DLConfig where
  maxRetries : Nat
  isAudioOnly : Bool
  audioFormat : String
  resolution : String
  cookieBrowser : String
  useAria2c : Bool
  aria2cArgs : String
  outputTemplate : String
deriving DecidableEq

/-- The primary argument set built at the top of each loop iteration
(src/downloader/downloader.go lines 989-1017). -/
def primaryArgs (cfg : DLConfig) (args : List String) (tempDir : String) : List String :=
  let cmdArgs := ["--no-overwrites", "--geo-bypass", "--no-check-certificate",
    "--concurrent-fragments", "16", "--no-warnings", "--progress", "--newline",
    "--output", tempDir ++ "/" ++ cfg.outputTemplate]
  let cmdArgs := if cfg.cookieBrowser ≠ "" then
      cmdArgs ++ ["--cookies-from-browser", cfg.cookieBrowser] else cmdArgs
  let cmdArgs := if cfg.isAudioOnly then
      cmdArgs ++ ["--extract-audio", "--audio-format", cfg.audioFormat]
    else if cfg.resolution ≠ "" then
      cmdArgs ++ ["--format", cfg.resolution ++ "+bestaudio/best"]
    else cmdArgs ++ ["--format", "bestvideo+bestaudio/best"]
  let cmdArgs := cmdArgs ++ args
  if cfg.useAria2c then
    cmdArgs ++ ["--downloader", "aria2c", "--downloader-args", "aria2c:" ++ cfg.aria2cArgs]
  else cmdArgs

/-- The fallback argument set built on the last attempt's failure
(src/downloader/downloader.go lines 1029-1054): audio-only requests stay
audio-only, video requests get the capped `height<=1080` selector. -/
def fallbackArgs (cfg : DLConfig) (args : List String) (tempDir : String) : List String :=
  let fb := ["--no-overwrites", "--geo-bypass", "--no-check-certificate",
    "--concurrent-fragments", "16", "--no-warnings", "--progress", "--newline",
    "--output", tempDir ++ "/" ++ cfg.outputTemplate]
  let fb := if cfg.cookieBrowser ≠ "" then
      fb ++ ["--cookies-from-browser", cfg.cookieBrowser] else fb
  let fb := if cfg.isAudioOnly then
      fb ++ ["--extract-audio", "--audio-format", cfg.audioFormat]
    else fb ++ ["--format", "bestvideo[height<=1080]+bestaudio/best"]
  let fb := fb ++ args
  if cfg.useAria2c then
    fb ++ ["--downloader", "aria2c", "--downloader-args", "aria2c:" ++ cfg.aria2cArgs]
  else fb

/-- The error message of the exhausted-retries return. -/
def downloadFailMsg : String := "all download attempts failed, including fallback"

/-- The retry loop; `remaining` counts loop iterations still to run (the
current attempt equals `MaxRetries` exactly when `remaining = 1`), `runIdx`
numbers the spawns consulted on the oracle.  Returns the spawned argument
vectors in order, the success flag, and the returned error. -/
def downloadAux (prim fall : List String) (oracle : Nat → Bool) :
    Nat → Nat → List (List String) × Bool × Option String
  | _, 0 => ([], false, some downloadFailMsg)
  | runIdx, remaining + 1 =>
    if oracle runIdx then ([prim], true, none)
    else if remaining = 0 then
      if oracle (runIdx + 1) then ([prim, fall], true, none)
      else ([prim, fall], false, some downloadFailMsg)
    else
      let r := downloadAux prim fall oracle (runIdx + 1) remaining
      (prim :: r.1, r.2.1, r.2.2)

/-- `Download` (src/downloader/downloader.go lines 983-1067) with the
process spawns abstracted by `oracle`. -/
def Download (cfg : DLConfig) (args : List String) (tempDir : String)
    (oracle : Nat → Bool) : List (List String) × Bool × Option String :=
  downloadAux (primaryArgs cfg args tempDir) (fallbackArgs cfg args tempDir)
    oracle 0 cfg.maxRetries

/-! ### The format catalog (`GetFormats`, src/downloader/downloader.go lines 855-980)

The pure part of `GetFormats`: tolerant field scanning of `--list-formats`
rows, deduplication by height (preferring mp4, then direct http), and an
exchange sort by descending height.  Go map iteration order (used when
flattening the map to a slice) is unspecified; the model flattens in key
insertion order — the properties proved below are order-independent because
the subsequent sort sees pairwise-distinct heights. -/

/-- One parsed format row (`downloader.Format`). -/
structure Format where
  ID : String
  Height : Int
  Ext : String
  IsAudio : Bool
  Protocol : String
  FileSize : String
deriving DecidableEq, Repr, Inhabited

/-- `strings.Fields`: split around runs of whitespace. -/
def fieldsAux : List Char → List Char → List (List Char)
  | acc, [] => if acc = [] then [] else [acc.reverse]
  | acc, c :: rest =>
    if isGoSpace c then
      if acc = [] then fieldsAux [] rest else acc.reverse :: fieldsAux [] rest
    else fieldsAux (c :: acc) rest

def goFields (l : List Char) : List String := (fieldsAux [] l).map (fun f => String.mk f)

/-- `strconv.Atoi`: optional sign then decimal digits (overflow idealized
away). -/
def goAtoi (s : List Char) : Option Int :=
  match s with
  | [] => none
  | '+' :: rest => if rest ≠ [] ∧ rest.all isGoDigit then some (digitsToNat rest) else none
  | '-' :: rest => if rest ≠ [] ∧ rest.all isGoDigit then some (-(digitsToNat rest : Int)) else none
  | _ => if s.all isGoDigit then some (digitsToNat s) else none

/-- `strings.Split` for a non-empty separator (the only shape `GetFormats`
uses, `"x"`): split around every occurrence of `sep`.  Fueled by the input
length so it evaluates by kernel reduction. -/
def goSplitAux (sep : List Char) : Nat → List Char → List Char → List (List Char)
  | 0, acc, s => [acc.reverse ++ s]
  | fuel + 1, acc, s =>
    if sep.isPrefixOf s ∧ sep ≠ [] then
      acc.reverse :: goSplitAux sep fuel [] (s.drop sep.length)
    else
      match s with
      | [] => [acc.reverse]
      | c :: rest => goSplitAux sep fuel (c :: acc) rest

def goSplit (s sep : List Char) : List (List Char) :=
  goSplitAux sep (s.length + 1) [] s

/-- The head character of a string is a decimal digit. -/
def headIsDigit (s : String) : Bool :=
  match s.data with
  | c :: _ => isGoDigit c
  | [] => false

/-- The per-row field scan of `GetFormats`
(src/downloader/downloader.go lines 882-930): rows must mention `video only`
or `audio only`; height, extension, protocol and file size are picked up by
a last-assignment-wins pass over the fields; rows lacking a positive height
(video) or an extension (audio) are discarded. -/
def parseFormatLine (line : String) : Option Format :=
  if containsStr line "video only" || containsStr line "audio only" then
    let fields := goFields line.data
    if fields.length < 3 then none
    else
      let formatID := fields.getD 0 ""
      let isAudio := containsStr line "audio only"
      let acc := fields.foldl
        (fun (acc : Int × String × String × String) field =>
          let height := acc.1
          let ext := acc.2.1
          let protocol := acc.2.2.1
          let fileSize := acc.2.2.2
          let height := if containsStr field "x" && !isAudio then
              let parts := goSplit field.data ("x".data)
              if parts.length ≥ 2 then
                match goAtoi (parts.getD 1 []) with
                | some res => res
                | none => height
              else height
            else height
          let ext := if containsStr field "mp4" || containsStr field "webm" ||
              containsStr field "m4a" || containsStr field "mp3" then field else ext
          let protocol := if containsStr field "http" || containsStr field "m3u8" then
              field else protocol
          let fileSize := if (containsStr field "iB" || containsStr field "B") &&
              field.data.length > 2 &&
              (("iB".data).isSuffixOf field.data || ("B".data).isSuffixOf field.data) &&
              headIsDigit field then field else fileSize
          (height, ext, protocol, fileSize))
        ((0 : Int), "", "", "")
      if (isAudio && acc.2.1 ≠ "") || (!isAudio && acc.1 > 0) then
        some ⟨formatID, acc.1, acc.2.1, isAudio, acc.2.2.1, acc.2.2.2⟩
      else none
  else none

/-- All candidates parsed from the tool's output lines. -/
def parseFormats (lines : List String) : List Format := lines.filterMap parseFormatLine

/-- Lookup in the height-keyed map (`uniqueFormats[f.Height]`). -/
def lookupH : List (Int × Format) → Int → Option Format
  | [], _ => none
  | (k, v) :: rest, h => if k = h then some v else lookupH rest h

/-- Replacement of an existing key's value (`uniqueFormats[f.Height] = f`). -/
def replaceH : List (Int × Format) → Int → Format → List (Int × Format)
  | [], _, _ => []
  | (a, b) :: rest, k, f => (if a = k then (k, f) else (a, b)) :: replaceH rest k f

/-- The `shouldReplace` decision (src/downloader/downloader.go lines 946-957):
prefer mp4 over any other extension; on equal extensions prefer a direct
http (or blank) protocol over a segmented one. -/
def shouldReplace (f existing : Format) : Bool :=
  if f.Ext = "mp4" ∧ existing.Ext ≠ "mp4" then true
  else if f.Ext = existing.Ext then
    decide ((f.Protocol = "http" ∨ f.Protocol = "") ∧
      existing.Protocol ≠ "http" ∧ existing.Protocol ≠ "")
  else false

/-- One iteration of the deduplication loop
(src/downloader/downloader.go lines 935-962): audio rows are skipped, a new
height is inserted, a colliding height keeps the preferred candidate. -/
def dedupStep (m : List (Int × Format)) (f : Format) : List (Int × Format) :=
  if f.IsAudio then m
  else
    match lookupH m f.Height with
    | none => m ++ [(f.Height, f)]
    | some existing => if shouldReplace f existing then replaceH m f.Height f else m

/-- The `uniqueFormats` map after the whole loop. -/
def dedupFormats (l : List Format) : List (Int × Format) := l.foldl dedupStep []

/-- Flattening the map to a slice (Go iterates in unspecified order; the
model uses insertion order, irrelevant after sorting). -/
def mapValues (m : List (Int × Format)) : List Format := m.map (·.2)

/-- Default `Format` value for out-of-range indexing in the sort model. -/
def dFmt : Format := ⟨"", 0, "", false, "", ""⟩

/-- The parallel assignment `a[i], a[j] = a[j], a[i]`. -/
def swapFmt (l : List Format) (i j : Nat) : List Format :=
  (l.set i (l.getD j dFmt)).set j (l.getD i dFmt)

/-- Inner loop of the exchange sort
(src/downloader/downloader.go lines 971-977): `j` from `i+1` upward, swap
whenever `a[i].Height < a[j].Height`.  Fueled; `l.length` fuel suffices. -/
def innerF : Nat → List Format → Nat → Nat → List Format
  | 0, l, _, _ => l
  | fuel + 1, l, i, j =>
    if j < l.length then
      innerF fuel
        (if (l.getD i dFmt).Height < (l.getD j dFmt).Height then swapFmt l i j else l)
        i (j + 1)
    else l

/-- Outer loop of the exchange sort: `i` from `0` while `i < len - 1`. -/
def outerF : Nat → List Format → Nat → List Format
  | 0, l, _ => l
  | fuel + 1, l, i =>
    if i + 1 < l.length then outerF fuel (innerF l.length l i (i + 1)) (i + 1) else l

/-- Sort by descending height (src/downloader/downloader.go lines 970-977). -/
def sortFormats (l : List Format) : List Format := outerF l.length l 0

/-- Deduplicate then sort — the tail of `GetFormats` applied to an arbitrary
candidate list. -/
def dedupSort (candidates : List Format) : List Format :=
  sortFormats (mapValues (dedupFormats candidates))

/-- The pure part of `GetFormats`: from output lines to the resolved,
deduplicated, descending catalog. -/
def GetFormatsPure (lines : List String) : List Format :=
  dedupSort (parseFormats lines)

/-! ### The resolution screen's choice list (`updateFormatsLoading`,
src/tui/tui.go lines 563-606): the caller filters out audio variants and
prepends the synthetic default entry. -/

/-- The label rendered for one video format (with the optional size). -/
def renderChoice (f : Format) : String :=
  if f.FileSize ≠ "" then
    toString f.Height ++ "p (" ++ f.Ext ++ ", " ++ f.Protocol ++ ") - " ++ f.FileSize
  else
    toString f.Height ++ "p (" ++ f.Ext ++ ", " ++ f.Protocol ++ ")"

/-- The choice list built by `updateFormatsLoading` when video formats are
available (src/tui/tui.go lines 571-589). -/
def resolutionChoices (formats : List Format) : List String :=
  let videoFormats := formats.filter (fun f => !f.IsAudio)
  "Default (best available)" :: videoFormats.map renderChoice

/-! ### The metadata-loading screen (src/tui/tui.go lines 438-486)

`updateMetadataLoading` handles the messages arriving while metadata is
being fetched.  A fetch error whose text mentions an authentication/age
restriction, when no cookie browser has been bound yet, arms asynchronous
browser detection instead of quitting; the detection result then moves the
session to the browser-selection screen (or quits when no browser was
found).  Display-only fields (loading dots, animation state) are omitted. -/

/-- The screens of the session state machine (the `state` enum). -/
inductive Screen where
  | url | metadataLoading | browserSelection | format | resolution
  | confirmation | formatsLoading | downloading | downloadComplete
deriving DecidableEq, Repr

/-- The model fields `updateMetadataLoading` reads or writes. -/
structure TuiModel where
  screen : Screen
  needsBrowser : Bool
  cookieBrowser : String
  errorMsg : String
  availableBrowsers : List String
  choices : List String
  cursor : Nat
  playlistInfo : String
  title : String
deriving DecidableEq, Repr

/-- The commands the handler can return to the Bubble Tea runtime. -/
inductive TuiCmd where
  | none
  | quit
  | detectBrowsersAsync
  | tick
deriving DecidableEq, Repr

/-- The messages the handler can receive. -/
inductive TuiMsg where
  | metadataFetched (playlistInfo title : String) (err : Option String)
  | browsersDetected (browsers : List String)
  | tick
  | keyCtrlC
deriving DecidableEq, Repr

/-- The authentication/age-restriction test applied to the error text
(src/tui/tui.go line 444). -/
def isAuthRestricted (e : String) : Bool :=
  containsStr e "Sign in to confirm" || containsStr e "Age-restricted"

/-- `updateMetadataLoading` (src/tui/tui.go lines 438-486). -/
def updateMetadataLoading (m : TuiModel) (msg : TuiMsg) : TuiModel × TuiCmd :=
  match msg with
  | .metadataFetched playlistInfo title err =>
    match err with
    | some e =>
      if isAuthRestricted e then
        if !m.needsBrowser && m.cookieBrowser = "" then
          ({ m with needsBrowser := true }, .detectBrowsersAsync)
        else
          ({ m with errorMsg := "Failed to fetch metadata: " ++ e }, .quit)
      else
        ({ m with errorMsg := "Failed to fetch metadata: " ++ e }, .quit)
    | none =>
      ({ m with playlistInfo := playlistInfo, title := title,
                screen := .format, cursor := 0 }, .none)
  | .browsersDetected browsers =>
    let m := { m with availableBrowsers := browsers }
    if m.availableBrowsers.length = 0 then
      ({ m with errorMsg :=
          "Age-restricted video. No supported browsers found for authentication." }, .quit)
    else
      ({ m with screen := .browserSelection, cursor := 0,
                choices := m.availableBrowsers }, .none)
  | .tick => (m, .tick)
  | .keyCtrlC => (m, .quit)

/-! ### Theorems: the download engine -/

theorem downloadAux_succ (prim fall : List String) (oracle : Nat → Bool)
    (runIdx remaining : Nat) :
    downloadAux prim fall oracle runIdx (remaining + 1) =
      (if oracle runIdx then ([prim], true, none)
      else if remaining = 0 then
        if oracle (runIdx + 1) then ([prim, fall], true, none)
        else ([prim, fall], false, some downloadFailMsg)
      else
        let r := downloadAux prim fall oracle (runIdx + 1) remaining
        (prim :: r.1, r.2.1, r.2.2)) := rfl

theorem downloadAux_all_fail (prim fall : List String) (oracle : Nat → Bool)
    (hfail : ∀ i, oracle i = false) :
    ∀ (n runIdx : Nat), 1 ≤ n →
      downloadAux prim fall oracle runIdx n =
        (List.replicate n prim ++ [fall], false, some downloadFailMsg) := by
  intro n
  induction n with
  | zero => intro runIdx h; omega
  | succ k ih =>
    intro runIdx _
    cases k with
    | zero =>
      rw [downloadAux_succ]
      simp [hfail]
    | succ k' =>
      have hrec := ih (runIdx + 1) (by omega)
      rw [downloadAux_succ, hrec]
      simp [hfail, List.replicate_succ]

theorem downloadAux_shape (prim fall : List String) (oracle : Nat → Bool) :
    ∀ (n runIdx : Nat),
      ((downloadAux prim fall oracle runIdx n).2.1 = true ∧
        (downloadAux prim fall oracle runIdx n).2.2 = none) ∨
      ((downloadAux prim fall oracle runIdx n).2.1 = false ∧
        (downloadAux prim fall oracle runIdx n).2.2 = some downloadFailMsg) := by
  intro n
  induction n with
  | zero => intro runIdx; right; simp [downloadAux]
  | succ k ih =>
    intro runIdx
    rw [downloadAux_succ]
    by_cases h1 : oracle runIdx = true
    · left; simp [h1]
    · rw [Bool.not_eq_true] at h1
      cases k with
      | zero =>
        by_cases h2 : oracle (runIdx + 1) = true
        · left; simp [h1, h2]
        · rw [Bool.not_eq_true] at h2
          right; simp [h1, h2]
      | succ k' =>
        rcases ih (runIdx + 1) with ⟨ha, hb⟩ | ⟨ha, hb⟩
        · left; constructor <;> simp [h1, ha, hb]
        · right; constructor <;> simp [h1, ha, hb]

/-- The success flag is tied to the spawned runs: a success means the last
spawned run exited zero, a failure means every spawned run exited non-zero
(spawn `idx` of the trace consults `oracle (runIdx + idx)`). -/
theorem downloadAux_oracle (prim fall : List String) (oracle : Nat → Bool) :
    ∀ (n runIdx : Nat),
      ((downloadAux prim fall oracle runIdx n).2.1 = true →
        oracle (runIdx + (downloadAux prim fall oracle runIdx n).1.length - 1) = true) ∧
      ((downloadAux prim fall oracle runIdx n).2.1 = false →
        ∀ i, i < (downloadAux prim fall oracle runIdx n).1.length →
          oracle (runIdx + i) = false) := by
  intro n
  induction n with
  | zero =>
    intro runIdx
    refine ⟨fun h => ?_, fun _ i hi => ?_⟩
    · simp [downloadAux] at h
    · simp [downloadAux] at hi
  | succ k ih =>
    intro runIdx
    rw [downloadAux_succ]
    by_cases h1 : oracle runIdx = true
    · refine ⟨fun _ => ?_, fun hf _ _ => ?_⟩
      · simp [h1]
      · rw [if_pos h1] at hf
        simp at hf
    · rw [Bool.not_eq_true] at h1
      cases k with
      | zero =>
        by_cases h2 : oracle (runIdx + 1) = true
        · refine ⟨fun _ => ?_, fun hf _ _ => ?_⟩
          · simp [h1, h2]
          · rw [if_neg (by simp [h1]), if_pos rfl, if_pos h2] at hf
            simp at hf
        · rw [Bool.not_eq_true] at h2
          refine ⟨fun ht => ?_, fun _ i hi => ?_⟩
          · rw [if_neg (by simp [h1]), if_pos rfl, if_neg (by simp [h2])] at ht
            simp at ht
          · rw [if_neg (by simp [h1]), if_pos rfl, if_neg (by simp [h2])] at hi
            simp at hi
            interval_cases i
            · simpa using h1
            · simpa using h2
      | succ m =>
        have hrec := ih (runIdx + 1)
        rw [if_neg (by simp [h1]), if_neg (by omega)]
        refine ⟨fun ht => ?_, fun hf i hi => ?_⟩
        · have h := hrec.1 ht
          have harith : runIdx + 1 + (downloadAux prim fall oracle (runIdx + 1) (m + 1)).1.length - 1 =
              runIdx + (prim :: (downloadAux prim fall oracle (runIdx + 1) (m + 1)).1).length - 1 := by
            simp only [List.length_cons]
            omega
          rw [harith] at h
          exact h
        · simp only [List.length_cons] at hi
          cases i with
          | zero => simpa using h1
          | succ j =>
            have h := hrec.2 hf j (by omega)
            have harith : runIdx + 1 + j = runIdx + (j + 1) := by omega
            rw [harith] at h
            exact h

/-- C2: with retry budget `N = MaxRetries ≥ 1` and every spawned process
failing, `Download` spawns exactly `N` primary-argument-set runs followed
immediately by exactly one fallback-argument-set run, and reports failure. -/
theorem C2_retry_budget_exhaustion (cfg : DLConfig) (args : List String)
    (tempDir : String) (oracle : Nat → Bool)
    (hfail : ∀ i, oracle i = false) (hN : 1 ≤ cfg.maxRetries) :
    Download cfg args tempDir oracle =
      (List.replicate cfg.maxRetries (primaryArgs cfg args tempDir) ++
        [fallbackArgs cfg args tempDir], false, some downloadFailMsg) :=
  downloadAux_all_fail _ _ oracle hfail cfg.maxRetries 0 hN

/-- Witness for C2 at a concrete configuration (the default `MaxRetries = 3`)
and an always-failing oracle: 3 primary runs, then the fallback, failure. -/
theorem C2_retry_budget_exhaustion_witness :
    Download ⟨3, false, "mp3", "137", "", true, "-x 16", "%(title)s.%(ext)s"⟩
        ["URL"] "/tmp/dl" (fun _ => false) =
      (List.replicate 3 (primaryArgs ⟨3, false, "mp3", "137", "", true, "-x 16", "%(title)s.%(ext)s"⟩ ["URL"] "/tmp/dl") ++
        [fallbackArgs ⟨3, false, "mp3", "137", "", true, "-x 16", "%(title)s.%(ext)s"⟩ ["URL"] "/tmp/dl"],
        false, some downloadFailMsg) :=
  C2_retry_budget_exhaustion _ _ _ _ (fun _ => rfl) (by decide)

/-- C10: `Download` returns exactly `(true, nil)` or `(false, non-nil
error)`, never a mixed shape; moreover success happens exactly when a
spawned run exits zero — on success the last spawned run exited zero, and on
failure every spawned run exited non-zero. -/
theorem C10_download_result_shape (cfg : DLConfig) (args : List String)
    (tempDir : String) (oracle : Nat → Bool) :
    (((Download cfg args tempDir oracle).2.1 = true ∧
        (Download cfg args tempDir oracle).2.2 = none) ∨
      ((Download cfg args tempDir oracle).2.1 = false ∧
        (Download cfg args tempDir oracle).2.2 = some downloadFailMsg)) ∧
    ((Download cfg args tempDir oracle).2.1 = true →
      oracle ((Download cfg args tempDir oracle).1.length - 1) = true) ∧
    ((Download cfg args tempDir oracle).2.1 = false →
      ∀ i, i < (Download cfg args tempDir oracle).1.length → oracle i = false) := by
  have hsh := downloadAux_shape (primaryArgs cfg args tempDir) (fallbackArgs cfg args tempDir)
    oracle cfg.maxRetries 0
  have hor := downloadAux_oracle (primaryArgs cfg args tempDir) (fallbackArgs cfg args tempDir)
    oracle cfg.maxRetries 0
  refine ⟨hsh, fun ht => ?_, fun hf i hi => ?_⟩
  · have h := hor.1 ht
    simpa using h
  · have h := hor.2 hf i hi
    simpa using h

/-- The configuration used by the C10 witness. -/
def c10Cfg : DLConfig := ⟨3, true, "mp3", "", "firefox", false, "", "%(title)s.%(ext)s"⟩

/-- Witness for C10 at a concrete configuration where the second spawn
succeeds: the result is `(true, nil)`, and the last of the two spawned runs
is the zero-exit one. -/
theorem C10_download_result_shape_witness :
    ((Download c10Cfg ["URL"] "/tmp/dl" (fun i => i = 1)).2.1 = true ∧
      (Download c10Cfg ["URL"] "/tmp/dl" (fun i => i = 1)).2.2 = none) ∧
    (fun i : Nat => (i = 1 : Bool))
      ((Download c10Cfg ["URL"] "/tmp/dl" (fun i => i = 1)).1.length - 1) = true ∧
    (Download c10Cfg ["URL"] "/tmp/dl" (fun i => i = 1)).1.length = 2 := by
  have h := C10_download_result_shape c10Cfg ["URL"] "/tmp/dl" (fun i => i = 1)
  have hok : (Download c10Cfg ["URL"] "/tmp/dl" (fun i => i = 1)).2.1 = true := by decide
  refine ⟨?_, h.2.1 hok, by decide⟩
  rcases h.1 with hsh | hsh
  · exact hsh
  · rw [hok] at hsh
    exact absurd hsh.1 (by decide)

/-! ### Theorems: the event bridge -/

theorem sendProgress_full (q : List ChanMsg) (m : ChanMsg)
    (h : q.length = progressChanCap) : sendProgress q m = q := by
  simp [sendProgress, h]

theorem chanStep_preserves (s s' : ChanState) (c : ChanMsg)
    (hstep : ChanStep s s') (hh : holdsMsg s c) : holdsMsg s' c := by
  cases hstep with
  | post ev =>
    rcases hh with h | h | h
    · exact Or.inl h
    · refine Or.inr (Or.inl ?_)
      unfold sendProgress
      split
      · exact List.mem_append_left _ h
      · exact h
    · exact Or.inr (Or.inr h)
  | completeSend c' hpend hroom =>
    rcases hh with h | h | h
    · have : c = c' := by rw [hpend] at h; exact Option.some.inj h.symm
      subst this
      exact Or.inr (Or.inl (List.mem_append_right _ (by simp)))
    · exact Or.inr (Or.inl (List.mem_append_left _ h))
    · exact Or.inr (Or.inr h)
  | consume m rest hq =>
    rcases hh with h | h | h
    · exact Or.inl h
    · rw [hq] at h
      rcases List.mem_cons.mp h with rfl | h
      · exact Or.inr (Or.inr (List.mem_append_right _ (by simp)))
      · exact Or.inr (Or.inl h)
    · exact Or.inr (Or.inr (List.mem_append_left _ h))

theorem chanSteps_preserve (s s' : ChanState) (c : ChanMsg)
    (hrt : Relation.ReflTransGen ChanStep s s') (hh : holdsMsg s c) : holdsMsg s' c := by
  induction hrt with
  | refl => exact hh
  | tail _ hstep ih => exact chanStep_preserves _ _ _ hstep ih

/-- C9: posting a progress event on a full `progressChan` leaves the channel
unchanged (the event is dropped, the producer does not block), while the
completion message is never dropped: along every execution it stays with the
blocked sender, in the buffer, or delivered — and once the sender has
unblocked and the buffer is drained it has been delivered to the loop. -/
theorem C9_progress_lossy_completion_guaranteed :
    (∀ (q : List ChanMsg) (m : ChanMsg), q.length = progressChanCap →
      sendProgress q m = q) ∧
    (∀ (s s' : ChanState) (c : ChanMsg), ChanStep s s' → holdsMsg s c → holdsMsg s' c) ∧
    (∀ (s s' : ChanState) (c : ChanMsg), Relation.ReflTransGen ChanStep s s' →
      holdsMsg s c → s'.pending = none → s'.queue = [] → c ∈ s'.delivered) := by
  refine ⟨sendProgress_full, chanStep_preserves, ?_⟩
  intro s s' c hrt hh hp hq
  rcases chanSteps_preserve s s' c hrt hh with h | h | h
  · rw [hp] at h; exact absurd h (by simp)
  · rw [hq] at h; exact absurd h (by simp)
  · exact h

/-- Witness for C9: a full queue of 100 progress events drops a new event. -/
theorem C9_progress_lossy_completion_guaranteed_witness :
    sendProgress (List.replicate progressChanCap (ChanMsg.progress ⟨[], 0, [], []⟩))
        (ChanMsg.progress ⟨[], 5, [], []⟩) =
      List.replicate progressChanCap (ChanMsg.progress ⟨[], 0, [], []⟩) :=
  C9_progress_lossy_completion_guaranteed.1 _ _ (by simp)

/-! ### Theorems: the metadata-loading screen -/

/-- C7: a metadata fetch error carrying an authentication/age-restriction
message, with no cookie browser bound yet, does not quit and does not set a
terminal error; it arms browser detection, and the detection result (for a
nonempty browser list) moves the session to the browser-selection screen. -/
theorem C7_auth_error_recovery (m : TuiModel) (pi ti e : String) (bs : List String)
    (hauth : isAuthRestricted e = true) (hnb : m.needsBrowser = false)
    (hcb : m.cookieBrowser = "") (hbs : bs ≠ []) :
    (updateMetadataLoading m (.metadataFetched pi ti (some e))).2 =
      TuiCmd.detectBrowsersAsync ∧
    (updateMetadataLoading m (.metadataFetched pi ti (some e))).2 ≠ TuiCmd.quit ∧
    (updateMetadataLoading m (.metadataFetched pi ti (some e))).1.errorMsg = m.errorMsg ∧
    (updateMetadataLoading ((updateMetadataLoading m (.metadataFetched pi ti (some e))).1)
        (.browsersDetected bs)).1.screen = Screen.browserSelection ∧
    (updateMetadataLoading ((updateMetadataLoading m (.metadataFetched pi ti (some e))).1)
        (.browsersDetected bs)).2 ≠ TuiCmd.quit := by
  have hlen : bs.length ≠ 0 := fun h => hbs (List.eq_nil_of_length_eq_zero h)
  simp [updateMetadataLoading, hauth, hnb, hcb, hlen]

/-- Witness for C7 at a concrete session and error message. -/
theorem C7_auth_error_recovery_witness :
    (updateMetadataLoading ⟨.metadataLoading, false, "", "", [], [], 0, "", ""⟩
        (.metadataFetched "" "" (some "ERROR: Sign in to confirm your age"))).2 =
      TuiCmd.detectBrowsersAsync ∧
    (updateMetadataLoading ⟨.metadataLoading, false, "", "", [], [], 0, "", ""⟩
        (.metadataFetched "" "" (some "ERROR: Sign in to confirm your age"))).2 ≠ TuiCmd.quit ∧
    (updateMetadataLoading ⟨.metadataLoading, false, "", "", [], [], 0, "", ""⟩
        (.metadataFetched "" "" (some "ERROR: Sign in to confirm your age"))).1.errorMsg = "" ∧
    (updateMetadataLoading
        ((updateMetadataLoading ⟨.metadataLoading, false, "", "", [], [], 0, "", ""⟩
          (.metadataFetched "" "" (some "ERROR: Sign in to confirm your age"))).1)
        (.browsersDetected ["firefox"])).1.screen = Screen.browserSelection ∧
    (updateMetadataLoading
        ((updateMetadataLoading ⟨.metadataLoading, false, "", "", [], [], 0, "", ""⟩
          (.metadataFetched "" "" (some "ERROR: Sign in to confirm your age"))).1)
        (.browsersDetected ["firefox"])).2 ≠ TuiCmd.quit :=
  C7_auth_error_recovery _ _ _ _ _ (by decide) rfl rfl (by decide)

/-! ### Theorems: the progress line classifier -/

theorem parseGoFloat_nonneg (s : List Char) (q : ℚ) (h : parseGoFloat s = some q) :
    0 ≤ q := by
  unfold parseGoFloat at h
  split at h
  · split at h
    · injection h with h
      subst h
      exact Nat.cast_nonneg _
    · exact absurd h (by simp)
  · split at h
    · split at h
      · injection h with h
        subst h
        have h1 : (0 : ℚ) ≤ (digitsToNat (s.takeWhile (· ≠ '.')) : ℚ) := Nat.cast_nonneg _
        have h2 : (0 : ℚ) ≤ (digitsToNat ((s.drop (s.takeWhile (· ≠ '.')).length).drop 1) : ℚ) /
            10 ^ ((s.drop (s.takeWhile (· ≠ '.')).length).drop 1).length :=
          div_nonneg (Nat.cast_nonneg _) (by positivity)
        exact add_nonneg h1 h2
      · exact absurd h (by simp)
    · exact absurd h (by simp)

theorem parseFloatOrZero_nonneg (s : List Char) : 0 ≤ parseFloatOrZero s := by
  unfold parseFloatOrZero
  cases h : parseGoFloat s with
  | none => simp
  | some q => simpa using parseGoFloat_nonneg s q h

theorem unitToMultiplier_pos (u : List Char) : 0 < unitToMultiplier u := by
  simp only [unitToMultiplier]
  split_ifs <;> norm_num

/-- Every event emitted by the classification cascade carries a nonnegative
percent. -/
theorem classifyLine_percent_nonneg (line : List Char) (ev : ProgressEvent)
    (h : classifyLine line = some ev) : 0 ≤ ev.percent := by
  unfold classifyLine at h
  split at h
  · injection h with h; subst h; exact parseFloatOrZero_nonneg _
  · split at h
    · injection h with h; subst h; exact parseFloatOrZero_nonneg _
    · split at h
      · injection h with h; subst h; exact parseFloatOrZero_nonneg _
      · split at h
        next c u1 t u2 heq =>
          split at h
          next hguard =>
            injection h with h; subst h
            show 0 ≤ parseFloatOrZero c * unitToMultiplier u1 /
              (parseFloatOrZero t * unitToMultiplier u2) * 100
            have h1 : (0 : ℚ) ≤ parseFloatOrZero c * unitToMultiplier u1 :=
              mul_nonneg (parseFloatOrZero_nonneg _) (le_of_lt (unitToMultiplier_pos _))
            have h2 : (0 : ℚ) ≤ parseFloatOrZero t * unitToMultiplier u2 :=
              mul_nonneg (parseFloatOrZero_nonneg _) (le_of_lt (unitToMultiplier_pos _))
            exact mul_nonneg (div_nonneg h1 h2) (by norm_num)
          next => exact absurd h (by simp)
        next =>
          split at h
          · injection h with h; subst h
            exact le_refl _
          · exact absurd h (by simp)

set_option maxRecDepth 4000

/-- C1 (counterexample to the claim as stated): the classifier performs no
clamping, so a line carrying an explicit percentage above 100 is emitted
with that percentage — percents are not always within `[0,100]`. -/
theorem C1_counterexample_percent_above_100 :
    (parseOutputEvents ("[download] 250%\n".data)).map ProgressEvent.percent = [250] ∧
    ¬((250 : ℚ) ≤ 100) := by
  constructor
  · decide
  · norm_num

/-- C1 (amended): every event emitted by `parseOutput` carries a
nonnegative percent (no upper clamp exists), and a byte-pair line whose
parsed total is zero — which includes every unparsable total, since the
failed `ParseFloat` leaves zero — produces no event instead of dividing by
zero. -/
theorem C1_percent_nonneg_and_zero_total_silent :
    (∀ (stream : List Char) (ev : ProgressEvent), ev ∈ parseOutputEvents stream →
      0 ≤ ev.percent) ∧
    (∀ (line c u1 t u2 : List Char), ytdlpMatch line = none → customMatch line = none →
      aria2cMatch line = none → bytesMatch line = some (c, u1, t, u2) →
      parseFloatOrZero t = 0 → classifyLine line = none) := by
  constructor
  · intro stream ev hev
    unfold parseOutputEvents at hev
    obtain ⟨l, hl, hcl⟩ := List.mem_filterMap.mp hev
    by_cases hnil : l = []
    · rw [if_pos hnil] at hcl
      exact absurd hcl (by simp)
    · rw [if_neg hnil] at hcl
      exact classifyLine_percent_nonneg l ev hcl
  · intro line c u1 t u2 hy hc ha hb ht
    unfold classifyLine
    rw [hy, hc, ha, hb]
    simp [ht]

/-- Witness for the amended C1: a stream whose only event has nonnegative
percent, and a byte-pair line with total `0B` that yields no event. -/
theorem C1_percent_nonneg_and_zero_total_silent_witness :
    (0 : ℚ) ≤ ((⟨"[download] 250%".data, 250, [], []⟩ : ProgressEvent)).percent ∧
    classifyLine ("aria 0.5MiB/0B done".data) = none :=
  ⟨C1_percent_nonneg_and_zero_total_silent.1 ("[download] 250%\n".data) _ (by decide),
   C1_percent_nonneg_and_zero_total_silent.2 _ ("0.5".data) ("MiB".data) ("0".data) ("B".data)
     (by decide) (by decide) (by decide) (by decide) (by decide)⟩

/-- C3 (counterexample to the claim as stated): the exact line
`"45.2% of 123.45MiB at 1.23MiB/s ETA 01:23"` — without the `[download]`
prefix the tool actually emits — matches none of the progress patterns and
produces no event at all. -/
theorem C3_counterexample_no_prefix_line_dropped :
    classifyLine ("45.2% of 123.45MiB at 1.23MiB/s ETA 01:23".data) = none := by
  decide

/-- C3 (amended): on the line as emitted by the tool, with its `[download]`
prefix — `"[download]  45.2% of 123.45MiB at 1.23MiB/s ETA 01:23"` — the
classifier emits Percent `45.2`, Speed `"1.23MiB/s"`, ETA `"01:23"`. -/
theorem C3_full_line_classification :
    (classifyLine ("[download]  45.2% of 123.45MiB at 1.23MiB/s ETA 01:23".data)).map
      ProgressEvent.percent = some 45.2 ∧
    (classifyLine ("[download]  45.2% of 123.45MiB at 1.23MiB/s ETA 01:23".data)).map
      ProgressEvent.speed = some ("1.23MiB/s".data) ∧
    (classifyLine ("[download]  45.2% of 123.45MiB at 1.23MiB/s ETA 01:23".data)).map
      ProgressEvent.eta = some ("01:23".data) := by
  refine ⟨?_, by decide, by decide⟩
  have h : (classifyLine ("[download]  45.2% of 123.45MiB at 1.23MiB/s ETA 01:23".data)).map
      ProgressEvent.percent = some (parseFloatOrZero ("45.2".data)) := rfl
  have hp : parseFloatOrZero ("45.2".data) = 45.2 := by
    have h2 : parseFloatOrZero ("45.2".data) = ((45 : ℕ) : ℚ) + ((2 : ℕ) : ℚ) / 10 ^ 1 := rfl
    rw [h2]
    norm_num
  rw [h, hp]

/-- C6: explicit-percentage patterns are consulted before the byte-pair
pattern, first match wins: whichever of the three explicit patterns
(yt-dlp, custom template, aria2c) fires first in cascade order supplies the
emitted percent, even when the byte-pair pattern also matches the line; when
only a byte pair matches (with a positive parsed total) the percent is
derived as `current/total*100` after unit conversion, with 1000-based
multipliers for the plain-letter units and 1024-based multipliers for the
i-suffixed units. -/
theorem C6_byte_pair_percent_and_match_order :
    (∀ (line c u1 t u2 : List Char),
      ytdlpMatch line = none → customMatch line = none → aria2cMatch line = none →
      bytesMatch line = some (c, u1, t, u2) → 0 < parseFloatOrZero t →
      classifyLine line = some ⟨line,
        parseFloatOrZero c * unitToMultiplier u1 /
          (parseFloatOrZero t * unitToMultiplier u2) * 100,
        speedOf line, etaOf line⟩) ∧
    (unitToMultiplier ("B".data) = 1 ∧ unitToMultiplier ("KB".data) = 1000 ∧
      unitToMultiplier ("MB".data) = 1000000 ∧ unitToMultiplier ("GB".data) = 1000000000 ∧
      unitToMultiplier ("TB".data) = 1000000000000 ∧ unitToMultiplier ("KiB".data) = 1024 ∧
      unitToMultiplier ("MiB".data) = 1024 * 1024 ∧
      unitToMultiplier ("GiB".data) = 1024 * 1024 * 1024 ∧
      unitToMultiplier ("TiB".data) = 1024 * 1024 * 1024 * 1024) ∧
    (∀ (line cap : List Char), ytdlpMatch line = some cap →
      classifyLine line = some ⟨line, parseFloatOrZero cap, speedOf line, etaOf line⟩) ∧
    (∀ (line cap : List Char), ytdlpMatch line = none → customMatch line = some cap →
      classifyLine line = some ⟨line, parseFloatOrZero cap, speedOf line, etaOf line⟩) ∧
    (∀ (line cap : List Char), ytdlpMatch line = none → customMatch line = none →
      aria2cMatch line = some cap →
      classifyLine line = some ⟨line, parseFloatOrZero cap, speedOf line, etaOf line⟩) := by
  refine ⟨?_, ⟨rfl, rfl, rfl, rfl, rfl, rfl, rfl, rfl, rfl⟩, ?_, ?_, ?_⟩
  · intro line c u1 t u2 hy hc ha hb ht
    unfold classifyLine
    rw [hy, hc, ha, hb]
    exact if_pos ⟨unitToMultiplier_pos u2, ht⟩
  · intro line cap hy
    unfold classifyLine
    rw [hy]
  · intro line cap hy hc
    unfold classifyLine
    rw [hy, hc]
  · intro line cap hy hc ha
    unfold classifyLine
    rw [hy, hc, ha]

/-- Witness for C6: a byte-pair-only line derives its percent from the byte
fraction, while lines carrying an explicit percentage — one per explicit
pattern — take the explicit percentage even though their byte pair also
matches. -/
theorem C6_byte_pair_percent_and_match_order_witness :
    classifyLine ("pg 5MiB/20MiB ok".data) = some ⟨"pg 5MiB/20MiB ok".data,
      parseFloatOrZero ("5".data) * unitToMultiplier ("MiB".data) /
        (parseFloatOrZero ("20".data) * unitToMultiplier ("MiB".data)) * 100,
      speedOf ("pg 5MiB/20MiB ok".data), etaOf ("pg 5MiB/20MiB ok".data)⟩ ∧
    (classifyLine ("[download] 30% 10MiB/20MiB".data) =
      some ⟨"[download] 30% 10MiB/20MiB".data, parseFloatOrZero ("30".data),
        speedOf ("[download] 30% 10MiB/20MiB".data),
        etaOf ("[download] 30% 10MiB/20MiB".data)⟩ ∧
      (bytesMatch ("[download] 30% 10MiB/20MiB".data)).isSome = true) ∧
    (classifyLine ("download:[download] 10MiB/20MiB (30%)".data) =
      some ⟨"download:[download] 10MiB/20MiB (30%)".data, parseFloatOrZero ("30".data),
        speedOf ("download:[download] 10MiB/20MiB (30%)".data),
        etaOf ("download:[download] 10MiB/20MiB (30%)".data)⟩ ∧
      (bytesMatch ("download:[download] 10MiB/20MiB (30%)".data)).isSome = true) ∧
    (classifyLine ("[#abc123 45.2MiB/123.45MiB(36%) CN:16 DL:1.2MiB ETA:1m23s]".data) =
      some ⟨"[#abc123 45.2MiB/123.45MiB(36%) CN:16 DL:1.2MiB ETA:1m23s]".data,
        parseFloatOrZero ("36".data),
        speedOf ("[#abc123 45.2MiB/123.45MiB(36%) CN:16 DL:1.2MiB ETA:1m23s]".data),
        etaOf ("[#abc123 45.2MiB/123.45MiB(36%) CN:16 DL:1.2MiB ETA:1m23s]".data)⟩ ∧
      (bytesMatch ("[#abc123 45.2MiB/123.45MiB(36%) CN:16 DL:1.2MiB ETA:1m23s]".data)).isSome
        = true) :=
  ⟨C6_byte_pair_percent_and_match_order.1 _ ("5".data) ("MiB".data) ("20".data) ("MiB".data)
      (by decide) (by decide) (by decide) (by decide) (by decide),
   ⟨C6_byte_pair_percent_and_match_order.2.2.1 _ ("30".data) (by decide), by decide⟩,
   ⟨C6_byte_pair_percent_and_match_order.2.2.2.1 _ ("30".data) (by decide) (by decide),
    by decide⟩,
   ⟨C6_byte_pair_percent_and_match_order.2.2.2.2 _ ("36".data) (by decide) (by decide)
      (by decide), by decide⟩⟩

/-- C8: the scanner's line splitter cuts tokens at every CR, LF, or CRLF
boundary (CRLF consumed as one delimiter), no token contains a CR or LF,
and a CR-terminated segment is emitted as its own token, never merged with
the following LF-terminated one. -/
theorem C8_splitCRLF_discrete_tokens :
    (∀ (data t : List Char), t ∈ crlfLines data → '\r' ∉ t ∧ '\n' ∉ t) ∧
    (∀ (a b : List Char), '\r' ∉ a → '\n' ∉ a →
      crlfLines (a ++ '\n' :: b) = a :: crlfLines b ∧
      crlfLines (a ++ '\r' :: '\n' :: b) = a :: crlfLines b ∧
      (b.head? ≠ some '\n' → crlfLines (a ++ '\r' :: b) = a :: crlfLines b)) := by
  have hclean : ∀ (a : List Char), '\r' ∉ a → '\n' ∉ a → ∀ c ∈ a, isCRLF c = false := by
    intro a h1 h2 c hc
    have hr : c ≠ '\r' := fun h => h1 (h ▸ hc)
    have hn : c ≠ '\n' := fun h => h2 (h ▸ hc)
    simp [isCRLF, hr, hn]
  constructor
  · intro data t ht
    have h := crlfLines_clean data t ht
    constructor
    · intro hr
      have := h '\r' hr
      simp [isCRLF] at this
    · intro hn
      have := h '\n' hn
      simp [isCRLF] at this
  · intro a b h1 h2
    exact ⟨crlfLines_append_lf a b (hclean a h1 h2),
      crlfLines_append_crlf a b (hclean a h1 h2),
      fun hb => crlfLines_append_cr a b (hclean a h1 h2) hb⟩

/-- Witness for C8: a CR-terminated segment stays a discrete token in front
of an LF-terminated one. -/
theorem C8_splitCRLF_discrete_tokens_witness :
    crlfLines ("ab".data ++ '\r' :: "cd\nef".data) = "ab".data :: crlfLines ("cd\nef".data) :=
  (C8_splitCRLF_discrete_tokens.2 ("ab".data) ("cd\nef".data)
    (by decide) (by decide)).2.2 (by decide)

/-! ### Lemmas: deduplication map -/

/-- The per-key effect of the dedup loop: the first candidate is kept until
a preferred one replaces it. -/
def dedupChain (o : Option Format) (f : Format) : Option Format :=
  match o with
  | none => some f
  | some e => if shouldReplace f e then some f else some e

theorem lookupH_replaceH_ne (m : List (Int × Format)) (k h : Int) (f : Format)
    (hne : k ≠ h) : lookupH (replaceH m k f) h = lookupH m h := by
  induction m with
  | nil => rfl
  | cons p rest ih =>
    cases p with
    | mk a b =>
      by_cases hak : a = k
      · subst hak
        simp only [replaceH, ite_true]
        simp [lookupH, hne, ih]
      · simp only [replaceH]
        rw [if_neg hak]
        simp [lookupH, ih]

theorem lookupH_replaceH_eq (m : List (Int × Format)) (k : Int) (e f : Format)
    (hl : lookupH m k = some e) : lookupH (replaceH m k f) k = some f := by
  induction m with
  | nil => simp [lookupH] at hl
  | cons p rest ih =>
    cases p with
    | mk a b =>
      by_cases hak : a = k
      · subst hak
        simp only [replaceH, ite_true]
        simp [lookupH]
      · simp only [lookupH, if_neg hak] at hl
        simp only [replaceH]
        rw [if_neg hak]
        simp [lookupH, hak, ih hl]

theorem replaceH_keys (m : List (Int × Format)) (k : Int) (f : Format) :
    (replaceH m k f).map Prod.fst = m.map Prod.fst := by
  induction m with
  | nil => rfl
  | cons p rest ih =>
    cases p with
    | mk a b =>
      by_cases hak : a = k
      · subst hak
        simp only [replaceH, ite_true]
        simp [ih]
      · simp only [replaceH]
        rw [if_neg hak]
        simp [ih]

theorem lookupH_append_of_some (m l : List (Int × Format)) (h : Int) (e : Format)
    (hl : lookupH m h = some e) : lookupH (m ++ l) h = some e := by
  induction m with
  | nil => simp [lookupH] at hl
  | cons p rest ih =>
    cases p with
    | mk a b =>
      by_cases hah : a = h
      · simp only [lookupH, if_pos hah] at hl
        simp [lookupH, hah, hl]
      · simp only [lookupH, if_neg hah] at hl
        simp [lookupH, hah, ih hl]

theorem lookupH_append_of_none (m l : List (Int × Format)) (h : Int)
    (hl : lookupH m h = none) : lookupH (m ++ l) h = lookupH l h := by
  induction m with
  | nil => rfl
  | cons p rest ih =>
    cases p with
    | mk a b =>
      by_cases hah : a = h
      · simp [lookupH, if_pos hah] at hl
      · simp only [lookupH, if_neg hah] at hl
        simp [lookupH, hah, ih hl]

theorem lookupH_none_iff (m : List (Int × Format)) (h : Int) :
    lookupH m h = none ↔ h ∉ m.map Prod.fst := by
  induction m with
  | nil => simp [lookupH]
  | cons p rest ih =>
    cases p with
    | mk a b =>
      by_cases hah : a = h
      · subst hah
        simp [lookupH]
      · simp only [lookupH, if_neg hah, List.map_cons, List.mem_cons, ih]
        constructor
        · intro hn hor
          rcases hor with hor | hor
          · exact hah hor.symm
          · exact hn hor
        · intro hn
          exact fun hm => hn (Or.inr hm)

theorem lookupH_mem (m : List (Int × Format)) (h : Int) (f : Format)
    (hl : lookupH m h = some f) : (h, f) ∈ m := by
  induction m with
  | nil => simp [lookupH] at hl
  | cons p rest ih =>
    cases p with
    | mk k v =>
      by_cases hk : k = h
      · subst hk
        simp only [lookupH, if_pos rfl] at hl
        injection hl with hl
        subst hl
        simp
      · simp only [lookupH, if_neg hk] at hl
        exact List.mem_cons_of_mem _ (ih hl)

theorem replaceH_mem (m : List (Int × Format)) (k : Int) (f : Format)
    (q : Int × Format) (hq : q ∈ replaceH m k f) : q ∈ m ∨ q = (k, f) := by
  induction m with
  | nil => simp [replaceH] at hq
  | cons p rest ih =>
    cases p with
    | mk a b =>
      by_cases hak : a = k
      · subst hak
        simp only [replaceH, ite_true] at hq
        rcases List.mem_cons.mp hq with h | h
        · exact Or.inr h
        · rcases ih h with h | h
          · exact Or.inl (List.mem_cons_of_mem _ h)
          · exact Or.inr h
      · simp only [replaceH, if_neg hak] at hq
        rcases List.mem_cons.mp hq with h | h
        · exact Or.inl (h ▸ List.mem_cons_self _ _)
        · rcases ih h with h | h
          · exact Or.inl (List.mem_cons_of_mem _ h)
          · exact Or.inr h

theorem mem_lookupH_of_nodup (m : List (Int × Format)) (h : Int) (x : Format)
    (hn : (m.map Prod.fst).Nodup) (hm : (h, x) ∈ m) : lookupH m h = some x := by
  induction m with
  | nil => simp at hm
  | cons p rest ih =>
    cases p with
    | mk a b =>
      rcases List.mem_cons.mp hm with heq | hm'
      · have ha : a = h := congrArg Prod.fst heq.symm
        have hb : b = x := congrArg Prod.snd heq.symm
        simp [lookupH, ha, hb]
      · simp only [List.map_cons, List.nodup_cons] at hn
        by_cases hah : a = h
        · subst hah
          exact absurd (List.mem_map_of_mem Prod.fst hm') hn.1
        · simp only [lookupH, if_neg hah]
          exact ih hn.2 hm'

/-- The per-key view of one dedup iteration. -/
theorem lookupH_dedupStep (m : List (Int × Format)) (f : Format) (h : Int) :
    lookupH (dedupStep m f) h =
      if f.IsAudio = false ∧ f.Height = h then dedupChain (lookupH m h) f
      else lookupH m h := by
  by_cases haud : f.IsAudio = true
  · rw [if_neg (by simp [haud])]
    unfold dedupStep
    rw [if_pos haud]
  · have haud' : f.IsAudio = false := by
      cases hfa : f.IsAudio
      · rfl
      · exact absurd hfa haud
    unfold dedupStep
    rw [if_neg haud]
    by_cases hh : f.Height = h
    · subst hh
      rw [if_pos ⟨haud', rfl⟩]
      split
      next hl =>
        rw [lookupH_append_of_none m _ _ hl, hl]
        simp [lookupH, dedupChain]
      next e hl =>
        rw [hl]
        by_cases hsr : shouldReplace f e = true
        · rw [if_pos hsr, lookupH_replaceH_eq m _ e f hl]
          simp [dedupChain, hsr]
        · rw [if_neg hsr, hl]
          simp [dedupChain, hsr]
    · rw [if_neg (by intro hcon; exact hh hcon.2)]
      split
      next hl =>
        cases hlh : lookupH m h with
        | none =>
          rw [lookupH_append_of_none m _ _ hlh]
          simp [lookupH, hh]
        | some e => exact lookupH_append_of_some m _ _ _ hlh
      next e hl =>
        by_cases hsr : shouldReplace f e = true
        · rw [if_pos hsr]
          exact lookupH_replaceH_ne m _ _ _ hh
        · rw [if_neg hsr]

/-- Only the candidates sharing the key's height (and not audio) influence
what the dedup map holds at that key, in list order. -/
theorem lookupH_dedup_fold :
    ∀ (l : List Format) (m : List (Int × Format)) (h : Int),
      lookupH (l.foldl dedupStep m) h =
        (l.filter (fun f => !f.IsAudio && f.Height == h)).foldl dedupChain (lookupH m h) := by
  intro l
  induction l with
  | nil => intro m h; rfl
  | cons f rest ih =>
    intro m h
    rw [List.foldl_cons, ih]
    simp only [List.filter_cons]
    by_cases hcase : f.IsAudio = false ∧ f.Height = h
    · have hpred : (!f.IsAudio && f.Height == h) = true := by
        simp [hcase.1, hcase.2]
      rw [if_pos hpred, List.foldl_cons, lookupH_dedupStep, if_pos hcase]
    · have hpred : ¬((!f.IsAudio && f.Height == h) = true) := by
        simp only [Bool.and_eq_true, Bool.not_eq_true', beq_iff_eq]
        exact hcase
      rw [if_neg hpred, lookupH_dedupStep, if_neg hcase]

theorem dedup_fold_keys_nodup :
    ∀ (l : List Format) (m : List (Int × Format)),
      (m.map Prod.fst).Nodup → ((l.foldl dedupStep m).map Prod.fst).Nodup := by
  intro l
  induction l with
  | nil => intro m hm; exact hm
  | cons f rest ih =>
    intro m hm
    rw [List.foldl_cons]
    apply ih
    unfold dedupStep
    by_cases haud : f.IsAudio = true
    · rw [if_pos haud]; exact hm
    · rw [if_neg haud]
      split
      next hl =>
        have hkey : f.Height ∉ m.map Prod.fst := (lookupH_none_iff m f.Height).mp hl
        simp only [List.map_append, List.map_cons, List.map_nil]
        rw [List.nodup_append]
        refine ⟨hm, List.nodup_singleton _, ?_⟩
        intro a ha hb
        simp at hb
        subst hb
        exact hkey ha
      next e hl =>
        by_cases hsr : shouldReplace f e = true
        · rw [if_pos hsr, replaceH_keys]; exact hm
        · rw [if_neg hsr]; exact hm

theorem dedup_fold_val (P : Format → Prop) :
    ∀ (l : List Format) (m : List (Int × Format)),
      (∀ p ∈ m, P p.2) → (∀ f ∈ l, f.IsAudio = false → P f) →
      ∀ p ∈ l.foldl dedupStep m, P p.2 := by
  intro l
  induction l with
  | nil => intro m hm _ p hp; exact hm p hp
  | cons f rest ih =>
    intro m hm hl p hp
    rw [List.foldl_cons] at hp
    refine ih _ ?_ (fun g hg ha => hl g (List.mem_cons_of_mem _ hg) ha) p hp
    intro q hq
    unfold dedupStep at hq
    by_cases haud : f.IsAudio = true
    · rw [if_pos haud] at hq; exact hm q hq
    · have haud' : f.IsAudio = false := by
        cases hfa : f.IsAudio
        · rfl
        · exact absurd hfa haud
      have hPf : P f := hl f (List.mem_cons_self _ _) haud'
      rw [if_neg haud] at hq
      split at hq
      · rcases List.mem_append.mp hq with h | h
        · exact hm q h
        · simp at h
          rw [h]
          exact hPf
      · split at hq
        · rcases replaceH_mem m _ f q hq with h | h
          · exact hm q h
          · rw [h]; exact hPf
        · exact hm q hq

theorem dedup_fold_val_height :
    ∀ (l : List Format) (m : List (Int × Format)),
      (∀ p ∈ m, p.2.Height = p.1) → ∀ p ∈ l.foldl dedupStep m, p.2.Height = p.1 := by
  intro l
  induction l with
  | nil => intro m hm p hp; exact hm p hp
  | cons f rest ih =>
    intro m hm p hp
    rw [List.foldl_cons] at hp
    refine ih _ ?_ p hp
    intro q hq
    unfold dedupStep at hq
    by_cases haud : f.IsAudio = true
    · rw [if_pos haud] at hq; exact hm q hq
    · rw [if_neg haud] at hq
      split at hq
      · rcases List.mem_append.mp hq with h | h
        · exact hm q h
        · simp at h
          rw [h]
      · split at hq
        · rcases replaceH_mem m _ f q hq with h | h
          · exact hm q h
          · rw [h]
        · exact hm q hq

/-! ### Lemmas: the exchange sort -/

theorem getD_set_eq (l : List Format) (i : Nat) (x d : Format) (h : i < l.length) :
    (l.set i x).getD i d = x := by
  induction l generalizing i with
  | nil => simp at h
  | cons a t ih =>
    cases i with
    | zero => rfl
    | succ k =>
      simp only [List.set_cons_succ, List.getD_cons_succ]
      exact ih k (by simpa using h)

theorem getD_set_ne (l : List Format) (i j : Nat) (x d : Format) (h : i ≠ j) :
    (l.set i x).getD j d = l.getD j d := by
  induction l generalizing i j with
  | nil => simp [List.getD]
  | cons a t ih =>
    cases i with
    | zero =>
      cases j with
      | zero => exact absurd rfl h
      | succ k => rfl
    | succ k =>
      cases j with
      | zero => rfl
      | succ n =>
        simp only [List.set_cons_succ, List.getD_cons_succ]
        exact ih k n (by omega)

theorem swapFmt_length (l : List Format) (i j : Nat) :
    (swapFmt l i j).length = l.length := by
  simp [swapFmt]

theorem swapFmt_getD_left (l : List Format) (i j : Nat) (d : Format)
    (hij : i ≠ j) (hi : i < l.length) :
    (swapFmt l i j).getD i d = l.getD j dFmt := by
  unfold swapFmt
  rw [getD_set_ne _ _ _ _ _ (fun h => hij h.symm), getD_set_eq _ _ _ _ hi]

theorem swapFmt_getD_right (l : List Format) (i j : Nat) (d : Format)
    (hj : j < l.length) :
    (swapFmt l i j).getD j d = l.getD i dFmt := by
  unfold swapFmt
  rw [getD_set_eq _ _ _ _ (by simpa using hj)]

theorem swapFmt_getD_other (l : List Format) (i j k : Nat) (d : Format)
    (hik : i ≠ k) (hjk : j ≠ k) :
    (swapFmt l i j).getD k d = l.getD k d := by
  unfold swapFmt
  rw [getD_set_ne _ _ _ _ _ hjk, getD_set_ne _ _ _ _ _ hik]

theorem cons_set_perm (t : List Format) (m : Nat) (a : Format) (hm : m < t.length) :
    List.Perm ((t.getD m dFmt) :: t.set m a) (a :: t) := by
  induction t generalizing m with
  | nil => simp at hm
  | cons b t' ih =>
    cases m with
    | zero =>
      simp only [List.getD_cons_zero, List.set_cons_zero]
      exact List.Perm.swap a b t'
    | succ k =>
      simp only [List.getD_cons_succ, List.set_cons_succ]
      have h1 : List.Perm (t'.getD k dFmt :: b :: t'.set k a) (b :: t'.getD k dFmt :: t'.set k a) :=
        List.Perm.swap b (t'.getD k dFmt) (t'.set k a)
      have h2 : List.Perm (b :: t'.getD k dFmt :: t'.set k a) (b :: a :: t') :=
        (ih k (by simpa using hm)).cons b
      have h3 : List.Perm (b :: a :: t') (a :: b :: t') := List.Perm.swap a b t'
      exact (h1.trans h2).trans h3

theorem swapFmt_perm (l : List Format) (i j : Nat) (hij : i < j) (hj : j < l.length) :
    List.Perm (swapFmt l i j) l := by
  induction l generalizing i j with
  | nil => simp at hj
  | cons a t ih =>
    cases i with
    | zero =>
      cases j with
      | zero => omega
      | succ m =>
        have hm : m < t.length := by simpa using hj
        show List.Perm (((a :: t).set 0 ((a :: t).getD (m + 1) dFmt)).set (m + 1)
          ((a :: t).getD 0 dFmt)) (a :: t)
        simp only [List.getD_cons_succ, List.getD_cons_zero, List.set_cons_zero,
          List.set_cons_succ]
        exact cons_set_perm t m a hm
    | succ k =>
      cases j with
      | zero => omega
      | succ m =>
        have hm : m < t.length := by simpa using hj
        show List.Perm (((a :: t).set (k + 1) ((a :: t).getD (m + 1) dFmt)).set (m + 1)
          ((a :: t).getD (k + 1) dFmt)) (a :: t)
        simp only [List.getD_cons_succ, List.set_cons_succ]
        exact (ih k m (by omega) hm).cons a

theorem take_set_of_le (l : List Format) (p i : Nat) (x : Format) (h : i ≤ p) :
    (l.set p x).take i = l.take i := by
  induction l generalizing p i with
  | nil => simp
  | cons a t ih =>
    cases p with
    | zero =>
      have hi : i = 0 := by omega
      subst hi
      simp
    | succ q =>
      cases i with
      | zero => simp
      | succ k =>
        simp only [List.set_cons_succ, List.take_succ_cons]
        rw [ih q k (by omega)]

theorem innerF_length (fuel : Nat) :
    ∀ (l : List Format) (i j : Nat), (innerF fuel l i j).length = l.length := by
  induction fuel with
  | zero => intro l i j; rfl
  | succ f ih =>
    intro l i j
    simp only [innerF]
    split
    · split
      · rw [ih, swapFmt_length]
      · rw [ih]
    · rfl

theorem innerF_perm (fuel : Nat) :
    ∀ (l : List Format) (i j : Nat), i < j → List.Perm (innerF fuel l i j) l := by
  induction fuel with
  | zero => intro l i j _; exact List.Perm.refl l
  | succ f ih =>
    intro l i j hij
    simp only [innerF]
    split
    next hj =>
      split
      next hlt =>
        exact (ih (swapFmt l i j) i (j + 1) (by omega)).trans
          (swapFmt_perm l i j hij hj)
      next => exact ih l i (j + 1) (by omega)
    next => exact List.Perm.refl l

theorem innerF_take (fuel : Nat) :
    ∀ (l : List Format) (i j : Nat), i < j → (innerF fuel l i j).take i = l.take i := by
  induction fuel with
  | zero => intro l i j _; rfl
  | succ f ih =>
    intro l i j hij
    simp only [innerF]
    split
    next hj =>
      split
      next hlt =>
        rw [ih (swapFmt l i j) i (j + 1) (by omega)]
        unfold swapFmt
        rw [take_set_of_le _ _ _ _ (by omega), take_set_of_le _ _ _ _ (by omega)]
      next => exact ih l i (j + 1) (by omega)
    next => rfl

theorem innerF_max (fuel : Nat) :
    ∀ (l : List Format) (i j : Nat), i < j → l.length ≤ j + fuel →
      (∀ k, i < k → k < j → ((l.getD k dFmt)).Height ≤ ((l.getD i dFmt)).Height) →
      ∀ k, i < k → k < (innerF fuel l i j).length →
        (((innerF fuel l i j).getD k dFmt)).Height ≤
          (((innerF fuel l i j).getD i dFmt)).Height := by
  induction fuel with
  | zero =>
    intro l i j hij hlen hinv k hik hk
    simp only [innerF] at hk ⊢
    exact hinv k hik (by omega)
  | succ f ih =>
    intro l i j hij hlen hinv k hik hk
    rw [innerF_length] at hk
    simp only [innerF]
    split
    next hj =>
      split
      next hlt =>
        refine ih (swapFmt l i j) i (j + 1) (by omega)
          (by rw [swapFmt_length]; omega) ?_ k hik
          (by rw [innerF_length, swapFmt_length]; omega)
        intro k' hik' hk'
        have hijne : i ≠ j := by omega
        by_cases hkj : k' = j
        · rw [hkj, swapFmt_getD_right l i j dFmt hj,
            swapFmt_getD_left l i j dFmt hijne (by omega)]
          exact le_of_lt hlt
        · have hk'j : k' < j := by omega
          rw [swapFmt_getD_other l i j k' dFmt (by omega) (by omega),
            swapFmt_getD_left l i j dFmt hijne (by omega)]
          exact le_of_lt (lt_of_le_of_lt (hinv k' hik' hk'j) hlt)
      next hge =>
        refine ih l i (j + 1) (by omega) (by omega) ?_ k hik
          (by rw [innerF_length]; omega)
        intro k' hik' hk'
        by_cases hkj : k' = j
        · rw [hkj]
          omega
        · exact hinv k' hik' (by omega)
    next hj =>
      exact hinv k hik (by omega)

theorem take_succ_getD (l : List Format) (i : Nat) (h : i < l.length) :
    l.take (i + 1) = l.take i ++ [l.getD i dFmt] := by
  induction l generalizing i with
  | nil => simp at h
  | cons a t ih =>
    cases i with
    | zero => simp
    | succ k =>
      simp only [List.take_succ_cons, List.getD_cons_succ, List.cons_append]
      rw [← ih k (by simpa using h)]

theorem getD_mem_drop (l : List Format) (i : Nat) (h : i < l.length) :
    l.getD i dFmt ∈ l.drop i := by
  induction l generalizing i with
  | nil => simp at h
  | cons a t ih =>
    cases i with
    | zero => simp
    | succ k =>
      simp only [List.getD_cons_succ, List.drop_succ_cons]
      exact ih k (by simpa using h)

theorem mem_drop_getD (l : List Format) (n : Nat) (y : Format) (hy : y ∈ l.drop n) :
    ∃ k, n ≤ k ∧ k < l.length ∧ l.getD k dFmt = y := by
  induction l generalizing n with
  | nil => simp at hy
  | cons a t ih =>
    cases n with
    | zero =>
      rcases List.mem_cons.mp (by simpa using hy) with rfl | hmem
      · exact ⟨0, by omega, by simp, rfl⟩
      · obtain ⟨k, hk1, hk2, hk3⟩ := ih 0 (by simpa using hmem)
        exact ⟨k + 1, by omega, by simp; omega, by simpa using hk3⟩
    | succ m =>
      obtain ⟨k, hk1, hk2, hk3⟩ := ih m (by simpa using hy)
      exact ⟨k + 1, by omega, by simp; omega, by simpa using hk3⟩

theorem mem_drop_of_succ (l : List Format) (n : Nat) (y : Format)
    (hy : y ∈ l.drop (n + 1)) : y ∈ l.drop n := by
  have h : l.drop (n + 1) = (l.drop n).drop 1 := by
    rw [List.drop_drop, Nat.add_comm]
  rw [h] at hy
  cases hd : l.drop n with
  | nil => rw [hd] at hy; simp at hy
  | cons c rest =>
    rw [hd] at hy
    simp at hy
    exact hd ▸ List.mem_cons_of_mem c hy

theorem pairwise_of_length_le_one (R : Format → Format → Prop) (l : List Format)
    (h : l.length ≤ 1) : l.Pairwise R := by
  cases l with
  | nil => simp
  | cons a t =>
    cases t with
    | nil => simp
    | cons b t' => simp at h

theorem outerF_perm (fuel : Nat) :
    ∀ (l : List Format) (i : Nat), List.Perm (outerF fuel l i) l := by
  induction fuel with
  | zero => intro l i; exact List.Perm.refl l
  | succ f ih =>
    intro l i
    simp only [outerF]
    split
    next h => exact (ih _ _).trans (innerF_perm _ _ _ _ (by omega))
    next => exact List.Perm.refl l

theorem outerF_sorted (fuel : Nat) :
    ∀ (l : List Format) (i : Nat), l.length ≤ i + 1 + fuel →
      (l.take i).Pairwise (fun a b => b.Height ≤ a.Height) →
      (∀ x ∈ l.take i, ∀ y ∈ l.drop i, y.Height ≤ x.Height) →
      (outerF fuel l i).Pairwise (fun a b => b.Height ≤ a.Height) := by
  induction fuel with
  | zero =>
    intro l i hlen hA hB
    simp only [outerF]
    rw [← List.take_append_drop i l]
    exact List.pairwise_append.mpr
      ⟨hA, pairwise_of_length_le_one _ _ (by rw [List.length_drop]; omega), hB⟩
  | succ f ih =>
    intro l i hlen hA hB
    simp only [outerF]
    split
    next hcond =>
      have hLr : (innerF l.length l i (i + 1)).length = l.length := innerF_length ..
      have htk : (innerF l.length l i (i + 1)).take i = l.take i :=
        innerF_take _ _ _ _ (by omega)
      have hpm : List.Perm (innerF l.length l i (i + 1)) l :=
        innerF_perm _ _ _ _ (by omega)
      have hmax : ∀ k, i < k → k < (innerF l.length l i (i + 1)).length →
          ((innerF l.length l i (i + 1)).getD k dFmt).Height ≤
            ((innerF l.length l i (i + 1)).getD i dFmt).Height :=
        innerF_max l.length l i (i + 1) (by omega) (by omega)
          (fun k h1 h2 => absurd h2 (by omega))
      have hdp : List.Perm ((innerF l.length l i (i + 1)).drop i) (l.drop i) := by
        have h1 : List.Perm
            ((innerF l.length l i (i + 1)).take i ++ (innerF l.length l i (i + 1)).drop i)
            (l.take i ++ l.drop i) := by
          rw [List.take_append_drop, List.take_append_drop]
          exact hpm
        rw [htk] at h1
        exact (List.perm_append_left_iff (l.take i)).mp h1
      have hgetmem : (innerF l.length l i (i + 1)).getD i dFmt ∈ l.drop i := by
        have hmem : (innerF l.length l i (i + 1)).getD i dFmt ∈
            (innerF l.length l i (i + 1)).drop i :=
          getD_mem_drop _ i (by omega)
        exact hdp.mem_iff.mp hmem
      have htk1 : (innerF l.length l i (i + 1)).take (i + 1) =
          l.take i ++ [(innerF l.length l i (i + 1)).getD i dFmt] := by
        rw [take_succ_getD _ _ (by omega), htk]
      refine ih (innerF l.length l i (i + 1)) (i + 1) (by omega) ?_ ?_
      · rw [htk1]
        apply List.pairwise_append.mpr
        refine ⟨hA, List.pairwise_singleton _ _, ?_⟩
        intro x hx y hy
        have hy' := List.mem_singleton.mp hy
        subst hy'
        exact hB x hx _ hgetmem
      · intro x hx y hy
        rw [htk1] at hx
        have hymem : y ∈ (innerF l.length l i (i + 1)).drop i :=
          mem_drop_of_succ _ _ _ hy
        rcases List.mem_append.mp hx with hx | hx
        · exact hB x hx y (hdp.mem_iff.mp hymem)
        · have hx' := List.mem_singleton.mp hx
          subst hx'
          obtain ⟨k, hk1, hk2, hk3⟩ := mem_drop_getD _ _ y hy
          rw [← hk3]
          exact hmax k (by omega) hk2
    next hcond =>
      rw [← List.take_append_drop i l]
      exact List.pairwise_append.mpr
        ⟨hA, pairwise_of_length_le_one _ _ (by rw [List.length_drop]; omega), hB⟩

/-- The exchange sort permutes its input. -/
theorem sortFormats_perm (l : List Format) : List.Perm (sortFormats l) l :=
  outerF_perm l.length l 0

/-- The exchange sort orders heights in (weakly) descending order. -/
theorem sortFormats_sorted (l : List Format) :
    (sortFormats l).Pairwise (fun a b => b.Height ≤ a.Height) := by
  apply outerF_sorted l.length l 0 (by omega)
  · simp
  · simp

theorem mapValues_pairwise_ne (m : List (Int × Format))
    (hval : ∀ p ∈ m, p.2.Height = p.1) (hn : (m.map Prod.fst).Nodup) :
    (mapValues m).Pairwise (fun a b => a.Height ≠ b.Height) := by
  unfold mapValues
  rw [List.pairwise_map]
  have hn' : m.Pairwise (fun p q => p.1 ≠ q.1) := List.pairwise_map.mp hn
  refine List.Pairwise.imp_of_mem ?_ hn'
  intro p q hp hq hne
  rw [hval p hp, hval q hq]
  exact hne

/-- The final catalog of `GetFormats` has strictly descending heights. -/
theorem dedupSort_pairwise_strict (cands : List Format) :
    (dedupSort cands).Pairwise (fun a b => b.Height < a.Height) := by
  have hval : ∀ p ∈ dedupFormats cands, p.2.Height = p.1 :=
    dedup_fold_val_height cands [] (by simp)
  have hkeys : ((dedupFormats cands).map Prod.fst).Nodup :=
    dedup_fold_keys_nodup cands [] (by simp)
  have hne : (mapValues (dedupFormats cands)).Pairwise (fun a b => a.Height ≠ b.Height) :=
    mapValues_pairwise_ne _ hval hkeys
  have hsorted := sortFormats_sorted (mapValues (dedupFormats cands))
  have hperm := sortFormats_perm (mapValues (dedupFormats cands))
  have hne' : (sortFormats (mapValues (dedupFormats cands))).Pairwise
      (fun a b => a.Height ≠ b.Height) := by
    refine (hperm.pairwise_iff ?_).mpr hne
    intro a b hab
    exact hab.symm
  exact (hsorted.and hne').imp (fun hc => lt_of_le_of_ne hc.1 (fun he => hc.2 he.symm))

theorem dedupSort_mem (cands : List Format) (f : Format) :
    f ∈ dedupSort cands ↔ f ∈ mapValues (dedupFormats cands) :=
  (sortFormats_perm _).mem_iff

/-- C4: when exactly two (non-audio) candidates share a height and exactly
one of them carries the default container extension mp4, the resolved
catalog contains the mp4 one for that height — whichever order the two
appeared in. -/
theorem C4_equal_height_prefers_mp4 (cands : List Format) (h : Int) (f g : Format)
    (hfil : cands.filter (fun x => !x.IsAudio && x.Height == h) = [f, g] ∨
            cands.filter (fun x => !x.IsAudio && x.Height == h) = [g, f])
    (hf : f.Ext = "mp4") (hg : g.Ext ≠ "mp4") :
    f ∈ dedupSort cands ∧ ∀ x ∈ dedupSort cands, x.Height = h → x = f := by
  have hlk : lookupH (dedupFormats cands) h = some f := by
    unfold dedupFormats
    rw [lookupH_dedup_fold cands [] h]
    have hsrgf : shouldReplace g f = false := by
      unfold shouldReplace
      rw [if_neg (fun hc => hg hc.1), if_neg (fun hc : g.Ext = f.Ext => hg (hc.trans hf))]
    have hsrfg : shouldReplace f g = true := by
      unfold shouldReplace
      rw [if_pos ⟨hf, hg⟩]
    rcases hfil with hfil | hfil
    · rw [hfil]
      simp [lookupH, dedupChain, hsrgf]
    · rw [hfil]
      simp [lookupH, dedupChain, hsrfg]
  have hval : ∀ p ∈ dedupFormats cands, p.2.Height = p.1 :=
    dedup_fold_val_height cands [] (by simp)
  have hkeys : ((dedupFormats cands).map Prod.fst).Nodup :=
    dedup_fold_keys_nodup cands [] (by simp)
  have hmemf : (h, f) ∈ dedupFormats cands := lookupH_mem _ _ _ hlk
  have hfv : f ∈ mapValues (dedupFormats cands) := List.mem_map_of_mem Prod.snd hmemf
  constructor
  · exact (dedupSort_mem cands f).mpr hfv
  · intro x hx hxh
    have hxv : x ∈ mapValues (dedupFormats cands) := (dedupSort_mem cands x).mp hx
    obtain ⟨p, hp, hpx⟩ := List.mem_map.mp hxv
    cases p with
    | mk k v =>
      have hph : v.Height = k := hval (k, v) hp
      have hvx : v = x := hpx
      have hkh : k = h := by rw [← hph, hvx]; exact hxh
      have hmem : (h, x) ∈ dedupFormats cands := by
        rw [← hkh, ← hvx]
        exact hp
      have hlx := mem_lookupH_of_nodup _ h x hkeys hmem
      rw [hlk] at hlx
      injection hlx with h'
      exact h'.symm

/-- A concrete catalog query for the C4 witness: a webm candidate arriving
before the mp4 candidate of the same height. -/
def c4Cands : List Format :=
  [⟨"248", 1080, "webm", false, "m3u8", ""⟩,
   ⟨"137", 1080, "mp4", false, "https", ""⟩,
   ⟨"136", 720, "mp4", false, "https", ""⟩]

/-- Witness for C4 at a concrete candidate list (mp4 arriving second). -/
theorem C4_equal_height_prefers_mp4_witness :
    (⟨"137", 1080, "mp4", false, "https", ""⟩ : Format) ∈ dedupSort c4Cands ∧
    ∀ x ∈ dedupSort c4Cands, x.Height = 1080 →
      x = (⟨"137", 1080, "mp4", false, "https", ""⟩ : Format) :=
  C4_equal_height_prefers_mp4 c4Cands 1080
    ⟨"137", 1080, "mp4", false, "https", ""⟩ ⟨"248", 1080, "webm", false, "m3u8", ""⟩
    (Or.inr (by decide)) (by decide) (by decide)

/-- The output lines used by the C5 witness. -/
def demoLines : List String :=
  ["137 mp4 1920x1080 https video only",
   "248 webm 1920x1080 m3u8 video only",
   "136 mp4 1280x720 https video only",
   "251 webm audio only 50k https"]

/-- C5: the catalog `GetFormats` returns has pairwise strictly descending
heights along the list (hence at most one entry per distinct height, highest
first), every entry is one of the parsed non-audio candidates (no synthetic
entry is added by the resolver), and the synthetic default entry is
prepended by the resolution screen's caller. -/
theorem C5_catalog_sorted_unique_default_by_caller :
    (∀ lines : List String,
      (GetFormatsPure lines).Pairwise (fun a b => b.Height < a.Height) ∧
      ∀ f ∈ GetFormatsPure lines, f ∈ parseFormats lines ∧ f.IsAudio = false) ∧
    (∀ formats : List Format, resolutionChoices formats =
      "Default (best available)" :: (formats.filter (fun f => !f.IsAudio)).map renderChoice) := by
  constructor
  · intro lines
    constructor
    · exact dedupSort_pairwise_strict _
    · intro f hf
      have hf' : f ∈ mapValues (dedupFormats (parseFormats lines)) :=
        (dedupSort_mem _ f).mp hf
      obtain ⟨p, hp, hpf⟩ := List.mem_map.mp hf'
      have h1 := dedup_fold_val (fun g => g ∈ parseFormats lines ∧ g.IsAudio = false)
        (parseFormats lines) [] (by simp) (fun g hg ha => ⟨hg, ha⟩) p hp
      rw [← hpf]
      exact h1
  · intro formats
    rfl

/-- Witness for C5 at a concrete `--list-formats` output (two heights, one
duplicated, one audio row), together with the concrete catalog value. -/
theorem C5_catalog_sorted_unique_default_by_caller_witness :
    (GetFormatsPure demoLines).Pairwise (fun a b => b.Height < a.Height) ∧
    (∀ f ∈ GetFormatsPure demoLines, f ∈ parseFormats demoLines ∧ f.IsAudio = false) ∧
    resolutionChoices (GetFormatsPure demoLines) =
      "Default (best available)" ::
        ((GetFormatsPure demoLines).filter (fun f => !f.IsAudio)).map renderChoice ∧
    GetFormatsPure demoLines =
      [⟨"137", 1080, "mp4", false, "https", ""⟩, ⟨"136", 720, "mp4", false, "https", ""⟩] :=
  ⟨(C5_catalog_sorted_unique_default_by_caller.1 demoLines).1,
   (C5_catalog_sorted_unique_default_by_caller.1 demoLines).2,
   C5_catalog_sorted_unique_default_by_caller.2 _,
   by decide⟩
